import Mathlib

/-!
Verification of the `bintrie` binary trie (`src/lib.rs`, `src/heuristic.rs`).

The store is a growable list of two-slot nodes.  Each 32-bit slot is a
tagged value: `0` means empty, a value with bit 31 set is a leaf holding
the payload in the low 31 bits, and any other nonzero value is the index
of another node.  We embed machine `u32` values as `Nat` with explicit
`% 2 ^ 32` where the source casts, and model panics of the insert path by
an `Except` result that carries the store as it was when the panic fired.
-/

/-- The reserved leaf tag bit, `0x8000_0000` from the source. -/
def HIGH : Nat := 0x80000000

/-- The low 31 bits, `!HIGH` as a `u32` mask. -/
def MASK : Nat := 0x7FFFFFFF

/-- A node: a list of 2 children slots, `[u32; 2]` in the source.
Slot `0` is selected by `position = 0` (key bit `false`),
slot `1` by `position = 1` (key bit `true`). -/
structure Internal where
  s0 : Nat
  s1 : Nat
deriving DecidableEq, Repr

instance : Inhabited Internal := ⟨⟨0, 0⟩⟩

/-- Indexing a node by the computed position (`false ↦ 0`, `true ↦ 1`). -/
def Internal.get (n : Internal) (b : Bool) : Nat :=
  if b then n.s1 else n.s0

/-- Writing one slot of a node at the given position. -/
def Internal.set (n : Internal) (b : Bool) (v : Nat) : Internal :=
  if b then { n with s1 := v } else { n with s0 := v }

/-- The trie: the node store (root always at index 0) and the maximum depth. -/
structure BinTrie where
  internals : List Internal
  depth : Nat
deriving DecidableEq, Repr

/-- Read node `j` of a store, with the source's unchecked read modelled as
a default (all-empty) node out of range. -/
def getE (l : List Internal) (j : Nat) : Internal :=
  l.getD j default

/-- `BinTrie::new_depth`: `assert!(depth > 0)`, then one all-empty root node.
`none` models the assertion panic. -/
def BinTrie.new_depth (depth : Nat) : Option BinTrie :=
  if 0 < depth then some { internals := [⟨0, 0⟩], depth := depth } else none

/-- `BinTrie::new` / `Default::default()`: one all-empty root node, depth 8192. -/
def BinTrie.new : BinTrie :=
  { internals := [⟨0, 0⟩], depth := 8192 }

/-- The two assertion failures the insert path can raise. -/
inductive InsertError where
  | highBit
  | overflow
deriving DecidableEq, Repr

/-- The descent loop of `BinTrie::insert` plus its final-depth step.
`fuel` is the number of remaining iterations of `for i in 0..depth - 1`;
at `fuel = 0` the code past the loop runs (the depth-ceiling write at
`key (depth - 1)`).  Errors carry the store as it was when the
corresponding `assert!` fired. -/
def insertGo (item : Nat) (key : Nat → Bool) (lookup : Nat → Nat → Bool) :
    List Internal → Nat → Nat → Nat →
    Except (InsertError × List Internal) (List Internal × Option Nat)
  | l, index, i, 0 =>
    let pos := key i
    let old := (getE l index).get pos
    .ok (l.set index ((getE l index).set pos (item ||| HIGH)),
         if old ≠ 0 then some (old &&& MASK) else none)
  | l, index, i, fuel + 1 =>
    let pos := key i
    let m := (getE l index).get pos
    if m = 0 then
      .ok (l.set index ((getE l index).set pos (item ||| HIGH)), none)
    else if m &&& HIGH ≠ 0 then
      let newInternal := (default : Internal).set (lookup (m &&& MASK) (i + 1)) m
      let newIndex := l.length % 2 ^ 32
      if newIndex &&& HIGH ≠ 0 then
        .error (.overflow, l)
      else
        insertGo item key lookup
          ((l ++ [newInternal]).set index
            ((getE (l ++ [newInternal]) index).set pos newIndex))
          newIndex (i + 1) fuel
    else
      insertGo item key lookup l m (i + 1) fuel

/-- `BinTrie::insert`: the reserved-bit check `assert!(item & HIGH == 0)`
runs before anything else, then the descent starts at the root. -/
def BinTrie.insert (t : BinTrie) (item : Nat) (key : Nat → Bool)
    (lookup : Nat → Nat → Bool) :
    Except (InsertError × List Internal) (BinTrie × Option Nat) :=
  if item &&& HIGH ≠ 0 then .error (.highBit, t.internals)
  else
    match insertGo item key lookup t.internals 0 0 (t.depth - 1) with
    | .error e => .error e
    | .ok (l, rep) => .ok ({ internals := l, depth := t.depth }, rep)

/-- The loop of `BinTrie::get`: `fuel` is the number of remaining
iterations of `for i in 0..depth`. -/
def getGo (l : List Internal) (key : Nat → Bool) : Nat → Nat → Nat → Option Nat
  | _, _, 0 => none
  | index, i, fuel + 1 =>
    let m := (getE l index).get (key i)
    if m = 0 then none
    else if m &&& HIGH ≠ 0 then some (m &&& MASK)
    else getGo l key m (i + 1) fuel

/-- `BinTrie::get`. -/
def BinTrie.get (t : BinTrie) (key : Nat → Bool) : Option Nat :=
  getGo t.internals key 0 0 t.depth

/-- One iteration of the loop inside `Iter::next` (`items()` iterator).
The stack holds, per visited node, the list of its slots not yet scanned
(head of the outer list = top of the stack, i.e. the `Vec`'s tail).
`none` means the stack was empty and the iterator is finished; otherwise
the result is an optional yielded payload and the new stack. -/
def stepIter (l : List Internal) (s : List (List Nat)) :
    Option (Option Nat × List (List Nat)) :=
  match s with
  | [] => none
  | [] :: rest => some (none, rest)
  | (v :: vs) :: rest =>
    if v = 0 then some (none, vs :: rest)
    else if v &&& HIGH ≠ 0 then some (some (v &&& MASK), vs :: rest)
    else some (none, [(getE l v).s0, (getE l v).s1] :: vs :: rest)

/-- Drive `stepIter` to completion with the given fuel, collecting every
yielded payload in order.  `none` means the fuel ran out first. -/
def runIter (l : List Internal) : Nat → List (List Nat) → Option (List Nat)
  | 0, s => if s = [] then some [] else none
  | fuel + 1, s =>
    match stepIter l s with
    | none => some []
    | some (y, s') =>
      (runIter l fuel s').map (fun L => y.elim L (fun x => x :: L))

/-- Reference depth-first pre-order walk of the node graph from `index`:
returns the visited node indices (pre-order), the leaf payloads in
visit order, and the number of `stepIter` iterations the items iterator
spends on this node's frame. -/
def dfsNode (l : List Internal) : Nat → Nat → List Nat × List Nat × Nat
  | 0, _ => ([], [], 0)
  | fuel + 1, index =>
    let n := getE l index
    let g : Nat → List Nat × List Nat × Nat := fun v =>
      if v = 0 then ([], [], 0)
      else if v &&& HIGH ≠ 0 then ([], [v &&& MASK], 0)
      else dfsNode l fuel v
    (index :: ((g n.s0).1 ++ (g n.s1).1),
     (g n.s0).2.1 ++ (g n.s1).2.1,
     3 + (g n.s0).2.2 + (g n.s1).2.2)

/-- Leaf payloads sitting directly in one slot value. -/
def leafOf (v : Nat) : List Nat :=
  if v ≠ 0 ∧ v &&& HIGH ≠ 0 then [v &&& MASK] else []

/-- All payloads currently stored in leaf slots anywhere in the store. -/
def storeLeaves (l : List Internal) : List Nat :=
  l.flatMap (fun n => leafOf n.s0 ++ leafOf n.s1)

/-- Leaf payloads stored directly in the slots of node `j`. -/
def nodeLeaves (l : List Internal) (j : Nat) : List Nat :=
  leafOf (getE l j).s0 ++ leafOf (getE l j).s1

/-- Node indices stored in one slot value (empty for empty and leaf slots). -/
def childOf (v : Nat) : List Nat :=
  if v ≠ 0 ∧ v &&& HIGH = 0 then [v] else []

/-- Every node index stored in any slot of the store, in slot order. -/
def childPointers (l : List Internal) : List Nat :=
  l.flatMap (fun n => childOf n.s0 ++ childOf n.s1)

/-- Internal-node references always point strictly forward (to a larger
index) and into the store; in particular the node graph is acyclic. -/
def Forward (l : List Internal) : Prop :=
  ∀ j b, j < l.length → (getE l j).get b ≠ 0 → (getE l j).get b &&& HIGH = 0 →
    j < (getE l j).get b ∧ (getE l j).get b < l.length

/-- Every slot holds a `u32` value. -/
def SlotBound (l : List Internal) : Prop :=
  ∀ j b, j < l.length → (getE l j).get b < 2 ^ 32

/-- Every node index other than the root appears in exactly one slot:
the stored references form a tree over the store. -/
def ChildPerm (l : List Internal) : Prop :=
  (childPointers l).Perm (List.range' 1 (l.length - 1))

/-- `dep` assigns each node its depth: the root has depth 0, a referenced
child is one deeper than the node referencing it, and nodes holding a
reference sit at depth at most `D - 2` (so nodes at the depth ceiling
`D - 1` hold only leaves and empties). -/
def StratOK (D : Nat) (l : List Internal) (dep : Nat → Nat) : Prop :=
  dep 0 = 0 ∧
  ∀ j b, j < l.length → (getE l j).get b ≠ 0 → (getE l j).get b &&& HIGH = 0 →
    dep ((getE l j).get b) = dep j + 1 ∧ dep j + 2 ≤ D

/-- The combined invariant of every reachable trie state. -/
structure INV (t : BinTrie) : Prop where
  depth_pos : 1 ≤ t.depth
  len_pos : 1 ≤ t.internals.length
  len_le : t.internals.length ≤ 2 ^ 31
  bound : SlotBound t.internals
  forw : Forward t.internals
  perm : ChildPerm t.internals
  strat : ∃ dep, StratOK t.depth t.internals dep

/-- Trie states reachable from a constructor by successful inserts.
The bound `item < 2 ^ 32` reflects the `u32` type of the inserted payload. -/
inductive Reachable : BinTrie → Prop where
  | base (d : Nat) (t : BinTrie) : BinTrie.new_depth d = some t → Reachable t
  | step (t t' : BinTrie) (item : Nat) (key : Nat → Bool)
      (lookup : Nat → Nat → Bool) (rep : Option Nat) :
      Reachable t → item < 2 ^ 32 →
      t.insert item key lookup = .ok (t', rep) → Reachable t'

/-- The per-slot action of the depth-first walk: empty and leaf slots are
terminal, internal slots recurse into `dfsNode`. -/
def dSlot (l : List Internal) (fuel : Nat) (v : Nat) : List Nat × List Nat × Nat :=
  if v = 0 then ([], [], 0)
  else if v &&& HIGH ≠ 0 then ([], [v &&& MASK], 0)
  else dfsNode l fuel v

/-- Leaves reachable through one slot value, at the canonical fuel. -/
def slotDen (l : List Internal) (v : Nat) : List Nat := (dSlot l l.length v).2.1

/-- Iterator steps the items machine spends below one slot value. -/
def slotCost (l : List Internal) (v : Nat) : Nat := (dSlot l l.length v).2.2

/-- Leaves the items iterator will still yield from one stack frame. -/
def frameDen (l : List Internal) (fr : List Nat) : List Nat := fr.flatMap (slotDen l)

/-- Leaves the items iterator will still yield from its whole stack. -/
def stackDen (l : List Internal) (s : List (List Nat)) : List Nat :=
  s.flatMap (frameDen l)

/-- Loop iterations needed to exhaust one stack frame. -/
def frameCost (l : List Internal) (fr : List Nat) : Nat :=
  1 + (fr.map (fun v => 1 + slotCost l v)).sum

/-- Loop iterations needed to exhaust the whole stack. -/
def stackCost (l : List Internal) (s : List (List Nat)) : Nat :=
  (s.map (frameCost l)).sum

/-- Every internal slot value mentioned by a frame is an in-range index. -/
def FrameOK (l : List Internal) (fr : List Nat) : Prop :=
  ∀ v, v ∈ fr → v ≠ 0 → v &&& HIGH = 0 → v < l.length

/-- The complete run of the `items()` iterator, started the way
`Iter::new` does (one frame holding both root slots in order), with
enough fuel for the whole traversal. -/
def BinTrie.itemsRun (t : BinTrie) : Option (List Nat) :=
  runIter t.internals (stackCost t.internals
      [[(getE t.internals 0).s0, (getE t.internals 0).s1]])
    [[(getE t.internals 0).s0, (getE t.internals 0).s1]]

/-- The reference order of `items()`: leaf payloads in depth-first
pre-order over the node tree. -/
def BinTrie.itemsRef (t : BinTrie) : List Nat :=
  (dfsNode t.internals t.internals.length 0).2.1

/-- One iteration of the loop inside `ExploreIter::next`.  A frame holds
the borrowed slot array of its node, the heuristic instance governing the
frame, and the remaining choices of that heuristic's iterator.  On a
descent the frame's heuristic is first duplicated (`next_heuristic`), the
duplicate alone receives `enter(choice)`, and the duplicate's fresh
iterator drives the child frame. -/
def stepExplore {H : Type} (l : List Internal) (ent : H → Bool → H)
    (its : H → List Bool) (s : List (Internal × H × List Bool)) :
    Option (Option Nat × List (Internal × H × List Bool)) :=
  match s with
  | [] => none
  | (arr, h, []) :: rest => some (none, rest)
  | (arr, h, c :: cs) :: rest =>
    if arr.get c = 0 then some (none, (arr, h, cs) :: rest)
    else if arr.get c &&& HIGH ≠ 0 then
      some (some (arr.get c &&& MASK), (arr, h, cs) :: rest)
    else
      some (none,
        (getE l (arr.get c), ent h c, its (ent h c)) :: (arr, h, cs) :: rest)

/-- Drive `stepExplore` to completion, collecting the yielded payloads. -/
def runExplore {H : Type} (l : List Internal) (ent : H → Bool → H)
    (its : H → List Bool) : Nat → List (Internal × H × List Bool) →
    Option (List Nat)
  | 0, [] => some []
  | 0, _ :: _ => none
  | fuel + 1, s =>
    match stepExplore l ent its s with
    | none => some []
    | some (y, s') =>
      (runExplore l ent its fuel s').map (fun L => y.elim L (fun x => x :: L))

/-- Reference guided traversal: at each node the frame's heuristic state
`h` yields the choice sequence, and each internal descent continues with
the duplicate `ent h c` while `h` itself stays with the parent frame.
Returns the yielded payloads and the machine cost of the node's frame. -/
def refExpNode {H : Type} (l : List Internal) (ent : H → Bool → H)
    (its : H → List Bool) : Nat → Nat → H → List Nat × Nat
  | 0, _, _ => ([], 0)
  | fuel + 1, index, h =>
    let g : Bool → List Nat × Nat := fun c =>
      if (getE l index).get c = 0 then ([], 0)
      else if (getE l index).get c &&& HIGH ≠ 0 then
        ([(getE l index).get c &&& MASK], 0)
      else refExpNode l ent its fuel ((getE l index).get c) (ent h c)
    ((its h).flatMap (fun c => (g c).1),
     1 + ((its h).map (fun c => 1 + (g c).2)).sum)

/-- Per-slot action of the reference guided traversal; the heuristic state
passed here is the already-entered duplicate. -/
def eSlot {H : Type} (l : List Internal) (ent : H → Bool → H)
    (its : H → List Bool) (fuel : Nat) (v : Nat) (h : H) : List Nat × Nat :=
  if v = 0 then ([], 0)
  else if v &&& HIGH ≠ 0 then ([v &&& MASK], 0)
  else refExpNode l ent its fuel v h

/-- Payloads a single explore frame will still yield. -/
def exFrameDen {H : Type} (l : List Internal) (ent : H → Bool → H)
    (its : H → List Bool) (fr : Internal × H × List Bool) : List Nat :=
  fr.2.2.flatMap (fun c => (eSlot l ent its l.length (fr.1.get c) (ent fr.2.1 c)).1)

/-- Payloads the whole explore stack will still yield. -/
def exStackDen {H : Type} (l : List Internal) (ent : H → Bool → H)
    (its : H → List Bool) (s : List (Internal × H × List Bool)) : List Nat :=
  s.flatMap (exFrameDen l ent its)

/-- Machine steps one explore frame still needs. -/
def exFrameCost {H : Type} (l : List Internal) (ent : H → Bool → H)
    (its : H → List Bool) (fr : Internal × H × List Bool) : Nat :=
  1 + (fr.2.2.map (fun c =>
    1 + (eSlot l ent its l.length (fr.1.get c) (ent fr.2.1 c)).2)).sum

/-- Machine steps the whole explore stack still needs. -/
def exStackCost {H : Type} (l : List Internal) (ent : H → Bool → H)
    (its : H → List Bool) (s : List (Internal × H × List Bool)) : Nat :=
  (s.map (exFrameCost l ent its)).sum

/-- Every frame's slot array is a node of the store. -/
def ExFramesOK {H : Type} (l : List Internal)
    (s : List (Internal × H × List Bool)) : Prop :=
  ∀ fr, fr ∈ s → ∃ j, j < l.length ∧ fr.1 = getE l j

/-- The complete run of `explore(heuristic)`, started the way
`ExploreIter::new` does: one frame with the root's slots, the initial
heuristic, and its iterator. -/
def BinTrie.exploreRun {H : Type} (t : BinTrie) (ent : H → Bool → H)
    (its : H → List Bool) (h0 : H) : Option (List Nat) :=
  runExplore t.internals ent its
    (exStackCost t.internals ent its [(getE t.internals 0, h0, its h0)])
    [(getE t.internals 0, h0, its h0)]

/-- The reference result of `explore(heuristic)` with per-branch
duplication of the heuristic state. -/
def BinTrie.exploreRef {H : Type} (t : BinTrie) (ent : H → Bool → H)
    (its : H → List Bool) (h0 : H) : List Nat :=
  (refExpNode t.internals ent its t.internals.length 0 h0).1

/-- `FilterHeuristic` over a pure predicate: `enter` calls the closure for
its side effects only, so on a pure predicate the state is unchanged. -/
def filterEnter (p : Bool → Bool) (_ : Bool) : Bool → Bool := p

/-- `FilterHeuristicIter` over a pure predicate yields, from the base
order `[false, true]`, exactly the choices the predicate accepts. -/
def filterIters (p : Bool → Bool) : List Bool :=
  [false, true].filter p

example : BinTrie.new.insert 5 (fun _ => false) (fun _ _ => false) =
    .ok ({ internals := [⟨0x80000005, 0⟩], depth := 8192 }, none) := rfl

/-! Bit-level facts about the tag bit and the payload mask. -/

theorem high_eq : HIGH = 2 ^ 31 := by decide

theorem mask_eq : MASK = 2 ^ 31 - 1 := by decide

theorem and_high_ne_iff (m : Nat) : m &&& HIGH ≠ 0 ↔ m.testBit 31 = true := by
  have h : m &&& HIGH = (m.testBit 31).toNat * 2 ^ 31 := by
    rw [high_eq]
    exact Nat.and_two_pow m 31
  rcases hb : m.testBit 31
  · rw [hb] at h
    simp at h
    simp [h, hb]
  · rw [hb] at h
    simp at h
    rw [h]
    simp

theorem and_high_eq_iff (m : Nat) : m &&& HIGH = 0 ↔ m.testBit 31 = false := by
  rw [← Bool.not_eq_true, ← and_high_ne_iff]
  exact not_not.symm

theorem lt_two_pow_31 (m : Nat) (h32 : m < 2 ^ 32) (hbit : m &&& HIGH = 0) :
    m < 2 ^ 31 := by
  rw [and_high_eq_iff] at hbit
  rw [Nat.testBit_to_div_mod] at hbit
  simp at hbit
  omega

theorem or_high_and_high (m : Nat) : (m ||| HIGH) &&& HIGH ≠ 0 := by
  rw [and_high_ne_iff, Nat.testBit_lor, high_eq, Nat.testBit_two_pow_self]
  simp

theorem or_high_ne_zero (m : Nat) : m ||| HIGH ≠ 0 := by
  intro h
  have := or_high_and_high m
  rw [h] at this
  exact this rfl

theorem or_high_and_mask (m : Nat) (h : m < 2 ^ 31) : (m ||| HIGH) &&& MASK = m := by
  apply Nat.eq_of_testBit_eq
  intro j
  rw [mask_eq, high_eq, Nat.testBit_and, Nat.testBit_lor, Nat.testBit_two_pow_sub_one]
  rcases Nat.lt_or_ge j 31 with hj | hj
  · have h2 : ((2:Nat) ^ 31).testBit j = false := by
      rw [Nat.testBit_two_pow]
      exact decide_eq_false (by omega)
    rw [h2, Bool.or_false, decide_eq_true hj, Bool.and_true]
  · have h1 : m.testBit j = false :=
      Nat.testBit_lt_two_pow (lt_of_lt_of_le h (Nat.pow_le_pow_right (by omega) hj))
    rw [h1, decide_eq_false (Nat.not_lt.mpr hj), Bool.and_false]

theorem or_high_lt (m : Nat) (h : m < 2 ^ 32) : m ||| HIGH < 2 ^ 32 := by
  rw [high_eq]
  exact Nat.or_lt_two_pow h (by norm_num)

theorem and_mask_lt (m : Nat) : m &&& MASK < 2 ^ 31 := by
  rw [mask_eq, Nat.and_pow_two_sub_one_eq_mod]
  exact Nat.mod_lt _ (by norm_num)

theorem and_mask_of_lt (m : Nat) (h : m < 2 ^ 31) : m &&& MASK = m := by
  rw [mask_eq, Nat.and_pow_two_sub_one_eq_mod]
  exact Nat.mod_eq_of_lt h

/-! Facts about reading and writing the store. -/

theorem Internal.get_set_same (n : Internal) (b : Bool) (v : Nat) :
    (n.set b v).get b = v := by
  cases b <;> simp [Internal.get, Internal.set]

theorem Internal.get_set_other (n : Internal) (b c : Bool) (v : Nat) (h : c ≠ b) :
    (n.set b v).get c = n.get c := by
  cases b <;> cases c <;> simp at h ⊢ <;> simp [Internal.get, Internal.set]

theorem getE_set_same (l : List Internal) (j : Nat) (n : Internal) (h : j < l.length) :
    getE (l.set j n) j = n := by
  unfold getE
  rw [List.getD_eq_getElem?_getD, List.getElem?_set_self h]
  rfl

theorem getE_set_other (l : List Internal) (j k : Nat) (n : Internal) (h : j ≠ k) :
    getE (l.set j n) k = getE l k := by
  unfold getE
  rw [List.getD_eq_getElem?_getD, List.getElem?_set_ne h, ← List.getD_eq_getElem?_getD]

theorem getE_append_left (l : List Internal) (l2 : List Internal) (j : Nat)
    (h : j < l.length) : getE (l ++ l2) j = getE l j := by
  unfold getE
  rw [List.getD_eq_getElem?_getD, List.getElem?_append, if_pos h,
    ← List.getD_eq_getElem?_getD]

theorem getE_append_right (l : List Internal) (n : Internal) :
    getE (l ++ [n]) l.length = n := by
  unfold getE
  rw [List.getD_eq_getElem?_getD, List.getElem?_concat_length]
  rfl

/-! Characterisation of the possible insert failures. -/

theorem insertGo_error (item : Nat) (key : Nat → Bool) (lookup : Nat → Nat → Bool) :
    ∀ fuel (l : List Internal) index i e l',
      insertGo item key lookup l index i fuel = .error (e, l') →
      e = .overflow ∧ (l'.length % 2 ^ 32) &&& HIGH ≠ 0 := by
  intro fuel
  induction fuel with
  | zero =>
    intro l index i e l' h
    simp [insertGo] at h
  | succ f ih =>
    intro l index i e l' h
    rw [insertGo] at h
    by_cases h0 : (getE l index).get (key i) = 0
    · rw [if_pos h0] at h
      simp at h
    · rw [if_neg h0] at h
      by_cases hleaf : (getE l index).get (key i) &&& HIGH ≠ 0
      · rw [if_pos hleaf] at h
        by_cases hov : (l.length % 2 ^ 32) &&& HIGH ≠ 0
        · rw [if_pos hov] at h
          simp at h
          exact ⟨h.1.symm, h.2 ▸ hov⟩
        · rw [if_neg hov] at h
          exact ih _ _ _ _ _ h
      · rw [if_neg hleaf] at h
        exact ih _ _ _ _ _ h

/-- C6: when the payload's reserved bit (bit 31) is set, the checked insert
panics on its very first statement, before touching the store, which the
error therefore carries unchanged; a payload with bit 31 clear can never
raise this failure. -/
theorem c6_reserved_bit_check :
    (∀ (t : BinTrie) item key lookup, item &&& HIGH ≠ 0 →
      t.insert item key lookup = .error (.highBit, t.internals)) ∧
    (∀ (t : BinTrie) item key lookup, item &&& HIGH = 0 →
      ∀ l, t.insert item key lookup ≠ .error (.highBit, l)) := by
  constructor
  · intro t item key lookup h
    unfold BinTrie.insert
    rw [if_pos h]
  · intro t item key lookup h l hcontra
    unfold BinTrie.insert at hcontra
    rw [if_neg (by rw [h]; exact fun hc => hc rfl)] at hcontra
    rcases hi : insertGo item key lookup t.internals 0 0 (t.depth - 1) with e | ok
    · obtain ⟨e1, l1⟩ := e
      have := (insertGo_error item key lookup _ _ _ _ _ _ hi).1
      rw [hi] at hcontra
      simp at hcontra
      rw [this] at hcontra
      exact InsertError.noConfusion hcontra.1
    · obtain ⟨l1, rep⟩ := ok
      rw [hi] at hcontra
      simp at hcontra

/-- C6 witness: a payload with bit 31 set (here `HIGH` itself) makes insert
fail with the store untouched, while payload 5 never trips this check. -/
theorem c6_witness :
    BinTrie.new.insert HIGH (fun _ => false) (fun _ _ => false) =
      .error (.highBit, [⟨0, 0⟩]) ∧
    BinTrie.new.insert 5 (fun _ => false) (fun _ _ => false) ≠
      .error (.highBit, [⟨0, 0⟩]) :=
  ⟨c6_reserved_bit_check.1 BinTrie.new HIGH (fun _ => false) (fun _ _ => false)
      (by decide),
   c6_reserved_bit_check.2 BinTrie.new 5 (fun _ => false) (fun _ _ => false)
      (by decide) [⟨0, 0⟩]⟩

/-- C7: at a leaf-collision step, the overflow assertion
`assert!(new_index & HIGH == 0)` fires exactly when the would-be node index
(the store length, cast to `u32`) has the tag bit set, and it fires before
the new node is pushed or its index stored anywhere, so the error carries
the store exactly as the iteration found it.  Conversely every failing
insert run fails this way, and for stores within the reachable size bound
the condition says precisely that the store would exceed `2^31 - 1` nodes. -/
theorem c7_overflow_fatal :
    (∀ (l : List Internal) index i fuel item key lookup,
      (getE l index).get (key i) ≠ 0 →
      (getE l index).get (key i) &&& HIGH ≠ 0 →
      (l.length % 2 ^ 32) &&& HIGH ≠ 0 →
      insertGo item key lookup l index i (fuel + 1) = .error (.overflow, l)) ∧
    (∀ fuel (l : List Internal) index i item key lookup e l',
      insertGo item key lookup l index i fuel = .error (e, l') →
      e = .overflow ∧ (l'.length % 2 ^ 32) &&& HIGH ≠ 0) ∧
    (∀ len : Nat, len ≤ 2 ^ 31 →
      ((len % 2 ^ 32) &&& HIGH ≠ 0 ↔ 2 ^ 31 - 1 < len)) := by
  refine ⟨?_, ?_, ?_⟩
  · intro l index i fuel item key lookup h0 hleaf hov
    rw [insertGo, if_neg h0, if_pos hleaf, if_pos hov]
  · intro fuel l index i item key lookup e l' h
    exact insertGo_error item key lookup fuel l index i e l' h
  · intro len hlen
    have hmod : len % 2 ^ 32 = len := Nat.mod_eq_of_lt (by omega)
    rw [hmod, and_high_ne_iff]
    constructor
    · intro hbit
      by_contra hc
      have hlt : len < 2 ^ 31 := by omega
      rw [Nat.testBit_lt_two_pow hlt] at hbit
      exact Bool.false_ne_true hbit
    · intro hgt
      have : len = 2 ^ 31 := by omega
      rw [this, Nat.testBit_two_pow_self]

/-- C7 witness: with a store of exactly `2^31` nodes whose root slot holds a
leaf, the split step fails with the overflow error and the untouched store. -/
theorem c7_witness :
    insertGo 5 (fun _ => false) (fun _ _ => false)
      (⟨HIGH, 0⟩ :: List.replicate (2 ^ 31 - 1) ⟨0, 0⟩) 0 0 1 =
      .error (.overflow, ⟨HIGH, 0⟩ :: List.replicate (2 ^ 31 - 1) ⟨0, 0⟩) :=
  c7_overflow_fatal.1 (⟨HIGH, 0⟩ :: List.replicate (2 ^ 31 - 1) ⟨0, 0⟩) 0 0 0 5
    (fun _ => false) (fun _ _ => false) (by decide) (by decide)
    (by
      rw [List.length_cons, List.length_replicate]
      have h31 : (2:Nat) ^ 31 - 1 + 1 = 2 ^ 31 := by omega
      rw [h31]
      decide)

/-- C4: when the descent loop meets a leaf `m` in the selected slot, it
builds a fresh node that is empty except for `m`'s tagged value placed at
the position `lookup (m payload) (i+1)`, appends it to the store, rewrites
the colliding slot to the new node's index (whose tag bit is clear), and
continues the loop from that node at depth `i + 1`. -/
theorem c4_leaf_split_step :
    ∀ (l : List Internal) index i fuel item key lookup,
    (getE l index).get (key i) ≠ 0 →
    (getE l index).get (key i) &&& HIGH ≠ 0 →
    (l.length % 2 ^ 32) &&& HIGH = 0 →
    ∃ newNode newIndex l2,
      newNode = (default : Internal).set
          (lookup ((getE l index).get (key i) &&& MASK) (i + 1))
          ((getE l index).get (key i)) ∧
      newIndex = l.length % 2 ^ 32 ∧ newIndex &&& HIGH = 0 ∧
      newNode.get (lookup ((getE l index).get (key i) &&& MASK) (i + 1)) =
        (getE l index).get (key i) ∧
      newNode.get (!(lookup ((getE l index).get (key i) &&& MASK) (i + 1))) = 0 ∧
      l2 = (l ++ [newNode]).set index
        ((getE (l ++ [newNode]) index).set (key i) newIndex) ∧
      l2.length = l.length + 1 ∧
      (index < l.length → (getE l2 index).get (key i) = newIndex) ∧
      insertGo item key lookup l index i (fuel + 1) =
        insertGo item key lookup l2 newIndex (i + 1) fuel := by
  intro l index i fuel item key lookup h0 hleaf hov
  refine ⟨_, _, _, rfl, rfl, hov, ?_, ?_, rfl, ?_, ?_, ?_⟩
  · exact Internal.get_set_same _ _ _
  · rw [Internal.get_set_other _ _ _ _ (by cases lookup ((getE l index).get (key i) &&& MASK) (i + 1) <;> simp)]
    cases lookup ((getE l index).get (key i) &&& MASK) (i + 1) <;> rfl
  · rw [List.length_set, List.length_append]
    rfl
  · intro hidx
    rw [getE_set_same _ _ _ (by rw [List.length_append]; omega)]
    exact Internal.get_set_same _ _ _
  · rw [insertGo, if_neg h0, if_pos hleaf,
      if_neg (by rw [hov]; exact fun hc => hc rfl)]

/-- C4 witness: splitting a root whose `false` slot holds tagged payload 0. -/
theorem c4_witness :
    (getE [(⟨HIGH, 0⟩ : Internal)] 0).get false ≠ 0 ∧
    ∃ newNode newIndex l2,
      newNode = (default : Internal).set false HIGH ∧
      newIndex = 1 % 2 ^ 32 ∧ newIndex &&& HIGH = 0 ∧
      newNode.get false = HIGH ∧ newNode.get true = 0 ∧
      l2 = ([(⟨HIGH, 0⟩ : Internal)] ++ [newNode]).set 0
        ((getE ([(⟨HIGH, 0⟩ : Internal)] ++ [newNode]) 0).set false newIndex) ∧
      l2.length = 2 ∧
      (0 < 1 → (getE l2 0).get false = newIndex) ∧
      insertGo 5 (fun _ => false) (fun _ _ => false) [(⟨HIGH, 0⟩ : Internal)] 0 0 1 =
        insertGo 5 (fun _ => false) (fun _ _ => false) l2 newIndex 1 0 := by
  refine ⟨by decide, ?_⟩
  have h := c4_leaf_split_step [(⟨HIGH, 0⟩ : Internal)] 0 0 0 5
    (fun _ => false) (fun _ _ => false) (by decide) (by decide) (by decide)
  simpa using h

/-- C8: `new()` yields depth 8192 with a single all-empty root node;
`new_depth` panics exactly on depth 0 and otherwise yields the same
one-root store with the requested bound. -/
theorem c8_constructors :
    BinTrie.new.depth = 8192 ∧ BinTrie.new.internals = [⟨0, 0⟩] ∧
    BinTrie.new_depth 0 = none ∧
    ∀ d, 0 < d → BinTrie.new_depth d = some { internals := [⟨0, 0⟩], depth := d } := by
  refine ⟨rfl, rfl, rfl, ?_⟩
  intro d hd
  unfold BinTrie.new_depth
  rw [if_pos hd]

/-- C8 witness: depth 3 is accepted and produces the one-root trie. -/
theorem c8_witness :
    0 < 3 ∧ BinTrie.new_depth 3 = some { internals := [⟨0, 0⟩], depth := 3 } :=
  ⟨by decide, c8_constructors.2.2.2 3 (by decide)⟩

/-! Surgery lemmas: how one slot write or one append changes the store's
stock of child pointers. -/

/-- Child pointers stored directly in one node. -/
def nodeChildren (n : Internal) : List Nat :=
  childOf n.s0 ++ childOf n.s1

theorem childPointers_cons (n : Internal) (l : List Internal) :
    childPointers (n :: l) = nodeChildren n ++ childPointers l := rfl

theorem childPointers_concat (l : List Internal) (n : Internal) :
    childPointers (l ++ [n]) = childPointers l ++ nodeChildren n := by
  unfold childPointers
  rw [List.flatMap_append]
  simp [nodeChildren]

theorem getE_cons_zero (n : Internal) (l : List Internal) : getE (n :: l) 0 = n := rfl

theorem getE_cons_succ (n : Internal) (l : List Internal) (j : Nat) :
    getE (n :: l) (j + 1) = getE l j := rfl

theorem childPointers_set (l : List Internal) :
    ∀ (j : Nat) (n : Internal), j < l.length →
    (childPointers (l.set j n) ++ nodeChildren (getE l j)).Perm
      (childPointers l ++ nodeChildren n) := by
  induction l with
  | nil => intro j n h; simp at h
  | cons h0 t ih =>
    intro j n hj
    match j with
    | 0 =>
      rw [List.set_cons_zero, childPointers_cons, childPointers_cons, getE_cons_zero]
      rw [← Multiset.coe_eq_coe]
      simp only [← Multiset.coe_add]
      abel
    | j + 1 =>
      rw [List.set_cons_succ, childPointers_cons, childPointers_cons, getE_cons_succ]
      have := ih j n (by simp at hj; omega)
      rw [← Multiset.coe_eq_coe] at this ⊢
      simp only [← Multiset.coe_add] at this ⊢
      have goal : (↑(childPointers (t.set j n)) + ↑(nodeChildren (getE t j)) :
          Multiset Nat) = ↑(childPointers t) + ↑(nodeChildren n) := this
      calc (↑(nodeChildren h0) + ↑(childPointers (t.set j n)) + ↑(nodeChildren (getE t j)) :
            Multiset Nat)
          = ↑(nodeChildren h0) + (↑(childPointers (t.set j n)) + ↑(nodeChildren (getE t j))) := by abel
        _ = ↑(nodeChildren h0) + (↑(childPointers t) + ↑(nodeChildren n)) := by rw [goal]
        _ = ↑(nodeChildren h0) + ↑(childPointers t) + ↑(nodeChildren n) := by abel

theorem childPointers_set_eq (l : List Internal) (j : Nat) (n : Internal)
    (hj : j < l.length) (heq : nodeChildren n = nodeChildren (getE l j)) :
    (childPointers (l.set j n)).Perm (childPointers l) := by
  have h := childPointers_set l j n hj
  rw [heq] at h
  rw [← Multiset.coe_eq_coe] at h ⊢
  simp only [← Multiset.coe_add] at h
  exact add_right_cancel h

theorem Internal.get_false (n : Internal) : n.get false = n.s0 := rfl

theorem Internal.get_true (n : Internal) : n.get true = n.s1 := rfl

theorem nodeChildren_set_leaf (n : Internal) (pos : Bool) (w : Nat)
    (hw : childOf w = []) (hold : childOf (n.get pos) = []) :
    nodeChildren (n.set pos w) = nodeChildren n := by
  cases pos
  · rw [Internal.get_false] at hold
    show childOf w ++ childOf n.s1 = childOf n.s0 ++ childOf n.s1
    rw [hw, hold]
  · rw [Internal.get_true] at hold
    show childOf n.s0 ++ childOf w = childOf n.s0 ++ childOf n.s1
    rw [hw, hold]

theorem childOf_leaf (w : Nat) (h : w &&& HIGH ≠ 0) : childOf w = [] := by
  unfold childOf
  rw [if_neg]
  rintro ⟨h1, h2⟩
  exact h h2

theorem childOf_zero : childOf 0 = [] := rfl

theorem childOf_internal (v : Nat) (h0 : v ≠ 0) (hi : v &&& HIGH = 0) :
    childOf v = [v] := by
  unfold childOf
  rw [if_pos ⟨h0, hi⟩]

theorem default_get (b : Bool) : (default : Internal).get b = 0 := by
  cases b <;> rfl

theorem nodeChildren_single (pos : Bool) (w : Nat) (hw : childOf w = []) :
    nodeChildren ((default : Internal).set pos w) = [] := by
  cases pos
  · show childOf w ++ childOf 0 = []
    rw [hw, childOf_zero]
    rfl
  · show childOf 0 ++ childOf w = []
    rw [hw, childOf_zero]
    rfl

theorem nodeChildren_set_child (n : Internal) (pos : Bool) (v : Nat)
    (hv : childOf v = [v]) (hold : childOf (n.get pos) = []) :
    (nodeChildren (n.set pos v)).Perm (nodeChildren n ++ [v]) := by
  cases pos
  · rw [Internal.get_false] at hold
    show (childOf v ++ childOf n.s1).Perm ((childOf n.s0 ++ childOf n.s1) ++ [v])
    rw [hv, hold]
    rw [← Multiset.coe_eq_coe]
    simp only [← Multiset.coe_add]
    abel
  · rw [Internal.get_true] at hold
    show (childOf n.s0 ++ childOf v).Perm ((childOf n.s0 ++ childOf n.s1) ++ [v])
    rw [hv, hold]
    rw [← Multiset.coe_eq_coe]
    simp only [← Multiset.coe_add]
    abel

theorem getGo_eq (l : List Internal) (key : Nat → Bool) (index i fuel : Nat) :
    getGo l key index i (fuel + 1) =
      (if (getE l index).get (key i) = 0 then none
       else if (getE l index).get (key i) &&& HIGH ≠ 0 then
         some ((getE l index).get (key i) &&& MASK)
       else getGo l key ((getE l index).get (key i)) (i + 1) fuel) := by
  rw [getGo]

theorem insertGo_zero (item : Nat) (key : Nat → Bool) (lookup : Nat → Nat → Bool)
    (l : List Internal) (index i : Nat) :
    insertGo item key lookup l index i 0 =
      .ok (l.set index ((getE l index).set (key i) (item ||| HIGH)),
        if (getE l index).get (key i) ≠ 0 then
          some ((getE l index).get (key i) &&& MASK)
        else none) := by
  rw [insertGo]

theorem insertGo_succ (item : Nat) (key : Nat → Bool) (lookup : Nat → Nat → Bool)
    (l : List Internal) (index i fuel : Nat) :
    insertGo item key lookup l index i (fuel + 1) =
      (if (getE l index).get (key i) = 0 then
        .ok (l.set index ((getE l index).set (key i) (item ||| HIGH)), none)
      else if (getE l index).get (key i) &&& HIGH ≠ 0 then
        (if (l.length % 2 ^ 32) &&& HIGH ≠ 0 then .error (.overflow, l)
         else
           insertGo item key lookup
             ((l ++ [(default : Internal).set
                 (lookup ((getE l index).get (key i) &&& MASK) (i + 1))
                 ((getE l index).get (key i))]).set index
               ((getE (l ++ [(default : Internal).set
                   (lookup ((getE l index).get (key i) &&& MASK) (i + 1))
                   ((getE l index).get (key i))]) index).set (key i)
                 (l.length % 2 ^ 32)))
             (l.length % 2 ^ 32) (i + 1) fuel)
      else
        insertGo item key lookup l ((getE l index).get (key i)) (i + 1) fuel) := by
  rw [insertGo]

/-- Overwriting a slot whose previous value was not an internal reference
with a tagged leaf preserves the structural store invariants. -/
theorem write_leaf_preserves (l : List Internal) (index : Nat) (pos : Bool)
    (item : Nat) (hidx : index < l.length)
    (hold : childOf ((getE l index).get pos) = [])
    (hf : Forward l) (hb : SlotBound l) (hcp : ChildPerm l)
    (hitem32 : item < 2 ^ 32) :
    Forward (l.set index ((getE l index).set pos (item ||| HIGH))) ∧
    SlotBound (l.set index ((getE l index).set pos (item ||| HIGH))) ∧
    ChildPerm (l.set index ((getE l index).set pos (item ||| HIGH))) := by
  refine ⟨?_, ?_, ?_⟩
  · intro j b hj hne hint
    rw [List.length_set] at hj
    by_cases hji : j = index
    · subst hji
      rw [getE_set_same _ _ _ hidx] at hne hint ⊢
      by_cases hbp : b = pos
      · subst hbp
        rw [Internal.get_set_same] at hint
        exact absurd hint (or_high_and_high item)
      · rw [Internal.get_set_other _ _ _ _ hbp] at hne hint ⊢
        have := hf j b hj hne hint
        rw [List.length_set]
        exact this
    · rw [getE_set_other _ _ _ _ (fun he => hji he.symm)] at hne hint ⊢
      have := hf j b hj hne hint
      rw [List.length_set]
      exact this
  · intro j b hj
    rw [List.length_set] at hj
    by_cases hji : j = index
    · subst hji
      rw [getE_set_same _ _ _ hidx]
      by_cases hbp : b = pos
      · subst hbp
        rw [Internal.get_set_same]
        exact or_high_lt item hitem32
      · rw [Internal.get_set_other _ _ _ _ hbp]
        exact hb j b hj
    · rw [getE_set_other _ _ _ _ (fun he => hji he.symm)]
      exact hb j b hj
  · have h1 : (childPointers (l.set index ((getE l index).set pos (item ||| HIGH)))).Perm
        (childPointers l) :=
      childPointers_set_eq l index _ hidx
        (nodeChildren_set_leaf _ pos _ (childOf_leaf _ (or_high_and_high item)) hold)
    unfold ChildPerm
    rw [List.length_set]
    exact h1.trans hcp

/-- Overwriting a slot whose previous value was not an internal reference
with a tagged leaf preserves the depth stratification. -/
theorem write_leaf_strat (D : Nat) (l : List Internal) (dep : Nat → Nat)
    (index : Nat) (pos : Bool) (item : Nat) (hidx : index < l.length)
    (hs : StratOK D l dep) :
    StratOK D (l.set index ((getE l index).set pos (item ||| HIGH))) dep := by
  refine ⟨hs.1, ?_⟩
  intro j b hj hne hint
  rw [List.length_set] at hj
  by_cases hji : j = index
  · subst hji
    rw [getE_set_same _ _ _ hidx] at hne hint ⊢
    by_cases hbp : b = pos
    · subst hbp
      rw [Internal.get_set_same] at hint
      exact absurd hint (or_high_and_high item)
    · rw [Internal.get_set_other _ _ _ _ hbp] at hne hint ⊢
      exact hs.2 j b hj hne hint
  · rw [getE_set_other _ _ _ _ (fun he => hji he.symm)] at hne hint ⊢
    exact hs.2 j b hj hne hint

/-- At the depth ceiling, the stratification rules out internal references. -/
theorem strat_no_child (D : Nat) (l : List Internal) (dep : Nat → Nat)
    (hs : StratOK D l dep) (index : Nat) (pos : Bool) (hidx : index < l.length)
    (hceil : ¬ dep index + 2 ≤ D) : childOf ((getE l index).get pos) = [] := by
  unfold childOf
  rw [if_neg]
  rintro ⟨h0, hint⟩
  exact hceil (hs.2 index pos hidx h0 hint).2

/-- Main induction over the insert loop: a successful run preserves every
structural invariant, never touches nodes below the current one, grows the
store within its bound, and leaves the item findable by `getGo` along the
key path from the point of insertion. -/
theorem insertGo_main (item : Nat) (key : Nat → Bool) (lookup : Nat → Nat → Bool)
    (hitem : item &&& HIGH = 0) (hitem32 : item < 2 ^ 32) :
    ∀ fuel (l : List Internal) (index i : Nat) (dep : Nat → Nat)
      (l' : List Internal) (rep : Option Nat),
    Forward l → SlotBound l → ChildPerm l → StratOK (i + fuel + 1) l dep →
    index < l.length → l.length ≤ 2 ^ 31 → dep index = i →
    insertGo item key lookup l index i fuel = .ok (l', rep) →
    l.length ≤ l'.length ∧ l'.length ≤ 2 ^ 31 ∧
    (∀ j, j < index → getE l' j = getE l j) ∧
    Forward l' ∧ SlotBound l' ∧ ChildPerm l' ∧
    (∃ dep2, StratOK (i + fuel + 1) l' dep2) ∧
    getGo l' key index i (fuel + 1) = some item := by
  intro fuel
  induction fuel with
  | zero =>
    intro l index i dep l' rep hf hb hcp hs hidx hlen hdep hrun
    rw [insertGo_zero] at hrun
    simp only [Except.ok.injEq, Prod.mk.injEq] at hrun
    obtain ⟨hl', hrep⟩ := hrun
    subst hl'
    have hold : childOf ((getE l index).get (key i)) = [] :=
      strat_no_child _ l dep hs index (key i) hidx (by rw [hdep]; omega)
    obtain ⟨pf, pb, pcp⟩ :=
      write_leaf_preserves l index (key i) item hidx hold hf hb hcp hitem32
    have hslot : (getE (l.set index ((getE l index).set (key i) (item ||| HIGH)))
        index).get (key i) = item ||| HIGH := by
      rw [getE_set_same _ _ _ hidx, Internal.get_set_same]
    refine ⟨le_of_eq (List.length_set _ _ _).symm,
      (List.length_set _ _ _).symm ▸ hlen, ?_, pf, pb, pcp,
      ⟨dep, write_leaf_strat _ l dep index (key i) item hidx hs⟩, ?_⟩
    · intro j hj
      exact getE_set_other _ _ _ _ (by omega)
    · rw [getGo_eq, hslot, if_neg (fun hc => or_high_ne_zero item hc),
        if_pos (or_high_and_high item),
        or_high_and_mask item (lt_two_pow_31 item hitem32 hitem)]
  | succ f ih =>
    intro l index i dep l' rep hf hb hcp hs hidx hlen hdep hrun
    rw [insertGo_succ] at hrun
    by_cases h0 : (getE l index).get (key i) = 0
    · -- empty slot: the leaf is written here and the run ends
      rw [if_pos h0] at hrun
      simp only [Except.ok.injEq, Prod.mk.injEq] at hrun
      obtain ⟨hl', hrep⟩ := hrun
      subst hl'
      have hold : childOf ((getE l index).get (key i)) = [] := by
        rw [h0]
        exact childOf_zero
      obtain ⟨pf, pb, pcp⟩ :=
        write_leaf_preserves l index (key i) item hidx hold hf hb hcp hitem32
      have hslot : (getE (l.set index ((getE l index).set (key i) (item ||| HIGH)))
          index).get (key i) = item ||| HIGH := by
        rw [getE_set_same _ _ _ hidx, Internal.get_set_same]
      refine ⟨le_of_eq (List.length_set _ _ _).symm,
        (List.length_set _ _ _).symm ▸ hlen, ?_, pf, pb, pcp,
        ⟨dep, write_leaf_strat _ l dep index (key i) item hidx hs⟩, ?_⟩
      · intro j hj
        exact getE_set_other _ _ _ _ (by omega)
      · rw [getGo_eq, hslot, if_neg (fun hc => or_high_ne_zero item hc),
          if_pos (or_high_and_high item),
          or_high_and_mask item (lt_two_pow_31 item hitem32 hitem)]
    · rw [if_neg h0] at hrun
      by_cases hleaf : (getE l index).get (key i) &&& HIGH ≠ 0
      · -- leaf collision: split, then continue from the fresh node
        rw [if_pos hleaf] at hrun
        by_cases hov : (l.length % 2 ^ 32) &&& HIGH ≠ 0
        · rw [if_pos hov] at hrun
          exact absurd hrun (by simp)
        · rw [if_neg hov] at hrun
          have hlen32 : l.length < 2 ^ 32 := by omega
          have hmod : l.length % 2 ^ 32 = l.length := Nat.mod_eq_of_lt hlen32
          rw [hmod] at hrun
          have hov' : l.length &&& HIGH = 0 := by
            rw [← hmod]
            exact not_not.mp hov
          have hlenlt : l.length < 2 ^ 31 := by
            rcases Nat.lt_or_ge l.length (2 ^ 31) with h | h
            · exact h
            · exact absurd hov'
                ((and_high_ne_iff _).mpr
                  (by
                    have he : l.length = 2 ^ 31 := by omega
                    rw [he]
                    exact Nat.testBit_two_pow_self))
          set pos := key i with hpos
          set m := (getE l index).get pos with hm
          set nn := (default : Internal).set (lookup (m &&& MASK) (i + 1)) m with hnn
          set l2 := (l ++ [nn]).set index ((getE (l ++ [nn]) index).set pos l.length)
            with hl2
          have hlenpos : 1 ≤ l.length := by omega
          have f1 : getE (l ++ [nn]) index = getE l index :=
            getE_append_left l [nn] index hidx
          have f2 : l2.length = l.length + 1 := by
            rw [hl2, List.length_set, List.length_append]
            rfl
          have f3 : getE l2 index = (getE l index).set pos l.length := by
            rw [hl2, f1, getE_set_same _ _ _ (by rw [List.length_append]; omega)]
          have f4 : getE l2 l.length = nn := by
            rw [hl2, getE_set_other _ _ _ _ (by omega), getE_append_right]
          have f5 : ∀ j, j < l.length → j ≠ index → getE l2 j = getE l j := by
            intro j hj hji
            rw [hl2, getE_set_other _ _ _ _ (fun he => hji he.symm),
              getE_append_left l [nn] j hj]
          have hnc : nodeChildren nn = [] :=
            nodeChildren_single _ _ (childOf_leaf _ hleaf)
          have hf2 : Forward l2 := by
            intro j b hj hne hint
            rw [f2] at hj
            by_cases hji : j = index
            · subst hji
              rw [f3] at hne hint ⊢
              by_cases hbp : b = pos
              · subst hbp
                rw [Internal.get_set_same] at hne hint ⊢
                rw [f2]
                omega
              · rw [Internal.get_set_other _ _ _ _ hbp] at hne hint ⊢
                have := hf j b hidx hne hint
                rw [f2]
                omega
            · by_cases hjl : j = l.length
              · subst hjl
                rw [f4, hnn] at hne hint
                by_cases hbl : b = lookup (m &&& MASK) (i + 1)
                · subst hbl
                  rw [Internal.get_set_same] at hint
                  exact absurd hint hleaf
                · rw [Internal.get_set_other _ _ _ _ hbl, default_get] at hne
                  exact absurd rfl hne
              · have hjlt : j < l.length := by omega
                rw [f5 j hjlt hji] at hne hint ⊢
                have := hf j b hjlt hne hint
                rw [f2]
                omega
          have hb2 : SlotBound l2 := by
            intro j b hj
            rw [f2] at hj
            by_cases hji : j = index
            · subst hji
              rw [f3]
              by_cases hbp : b = pos
              · subst hbp
                rw [Internal.get_set_same]
                omega
              · rw [Internal.get_set_other _ _ _ _ hbp]
                exact hb j b hidx
            · by_cases hjl : j = l.length
              · subst hjl
                rw [f4, hnn]
                by_cases hbl : b = lookup (m &&& MASK) (i + 1)
                · subst hbl
                  rw [Internal.get_set_same]
                  exact hb index pos hidx
                · rw [Internal.get_set_other _ _ _ _ hbl, default_get]
                  omega
              · have hjlt : j < l.length := by omega
                rw [f5 j hjlt hji]
                exact hb j b hjlt
          have hold : childOf m = [] := childOf_leaf _ hleaf
          have hcp2 : ChildPerm l2 := by
            have hs1 : (childPointers l2 ++ nodeChildren (getE (l ++ [nn]) index)).Perm
                (childPointers (l ++ [nn]) ++
                  nodeChildren ((getE (l ++ [nn]) index).set pos l.length)) :=
              childPointers_set (l ++ [nn]) index _
                (by rw [List.length_append]; simp; omega)
            rw [f1, childPointers_concat, hnc, List.append_nil] at hs1
            have hs2 : (nodeChildren ((getE l index).set pos l.length)).Perm
                (nodeChildren (getE l index) ++ [l.length]) :=
              nodeChildren_set_child _ _ _
                (childOf_internal _ (by omega) hov') hold
            have hs3 : (childPointers l2 ++ nodeChildren (getE l index)).Perm
                (childPointers l ++ (nodeChildren (getE l index) ++ [l.length])) :=
              hs1.trans ((hs2.append_left (childPointers l)))
            have hs4 : (childPointers l2).Perm (childPointers l ++ [l.length]) := by
              rw [← Multiset.coe_eq_coe] at hs3 ⊢
              simp only [← Multiset.coe_add] at hs3 ⊢
              have : (↑(childPointers l2) + ↑(nodeChildren (getE l index)) :
                  Multiset Nat) =
                  ↑(childPointers l) + ↑([l.length]) + ↑(nodeChildren (getE l index)) := by
                rw [hs3]
                abel
              exact add_right_cancel this
            unfold ChildPerm
            rw [f2]
            have : l.length + 1 - 1 = (l.length - 1) + 1 := by omega
            rw [this, List.range'_concat]
            have h1l : 1 + 1 * (l.length - 1) = l.length := by omega
            rw [h1l]
            exact hs4.trans (hcp.append_right [l.length])
          have hs2 : StratOK ((i + 1) + f + 1) l2
              (Function.update dep l.length (i + 1)) := by
            constructor
            · rw [Function.update_noteq (by omega : (0:Nat) ≠ l.length)]
              exact hs.1
            · intro j b hj hne hint
              rw [f2] at hj
              by_cases hji : j = index
              · subst hji
                rw [f3] at hne hint ⊢
                by_cases hbp : b = pos
                · subst hbp
                  rw [Internal.get_set_same] at hne hint ⊢
                  rw [Function.update_same,
                    Function.update_noteq (by omega : j ≠ l.length), hdep]
                  omega
                · rw [Internal.get_set_other _ _ _ _ hbp] at hne hint ⊢
                  have hv := hf j b hidx hne hint
                  have hst := hs.2 j b hidx hne hint
                  rw [Function.update_noteq (by omega :
                      (getE l j).get b ≠ l.length),
                    Function.update_noteq (by omega : j ≠ l.length)]
                  omega
              · by_cases hjl : j = l.length
                · subst hjl
                  rw [f4, hnn] at hne hint
                  by_cases hbl : b = lookup (m &&& MASK) (i + 1)
                  · subst hbl
                    rw [Internal.get_set_same] at hint
                    exact absurd hint hleaf
                  · rw [Internal.get_set_other _ _ _ _ hbl, default_get] at hne
                    exact absurd rfl hne
                · have hjlt : j < l.length := by omega
                  rw [f5 j hjlt hji] at hne hint ⊢
                  have hv := hf j b hjlt hne hint
                  have hst := hs.2 j b hjlt hne hint
                  rw [Function.update_noteq (by omega :
                      (getE l j).get b ≠ l.length),
                    Function.update_noteq (by omega : j ≠ l.length)]
                  omega
          have ihres := ih l2 l.length (i + 1) (Function.update dep l.length (i + 1))
            l' rep hf2 hb2 hcp2 hs2 (by omega) (by omega)
            (Function.update_same _ _ _) hrun
          obtain ⟨ih1, ih2, ih3, ih4, ih5, ih6, ih7, ih8⟩ := ihres
      -- assemble the conclusions for this level
          refine ⟨by omega, ih2, ?_, ih4, ih5, ih6, ?_, ?_⟩
          · intro j hj
            rw [ih3 j (by omega), f5 j (by omega) (by omega)]
          · obtain ⟨dep3, hdep3⟩ := ih7
            exact ⟨dep3, by
              have harith : i + 1 + f + 1 = i + (f + 1) + 1 := by omega
              rw [harith] at hdep3
              exact hdep3⟩
          · rw [getGo_eq]
            have hsl : (getE l' index).get (key i) = l.length := by
              rw [ih3 index (by omega), f3, ← hpos, Internal.get_set_same]
            rw [hsl, if_neg (by omega), if_neg (by rw [hov']; exact fun hc => hc rfl)]
            exact ih8
      · -- internal reference: move to the child node
        rw [if_neg hleaf] at hrun
        have hint : (getE l index).get (key i) &&& HIGH = 0 := not_not.mp hleaf
        obtain ⟨hlt, hub⟩ := hf index (key i) hidx h0 hint
        have hd := hs.2 index (key i) hidx h0 hint
        have ihres := ih l ((getE l index).get (key i)) (i + 1) dep l' rep
          hf hb hcp
          (by
            have harith : i + 1 + f + 1 = i + (f + 1) + 1 := by omega
            rw [harith]
            exact hs)
          hub hlen (by omega) hrun
        obtain ⟨ih1, ih2, ih3, ih4, ih5, ih6, ih7, ih8⟩ := ihres
        refine ⟨ih1, ih2, ?_, ih4, ih5, ih6, ?_, ?_⟩
        · intro j hj
          exact ih3 j (by omega)
        · obtain ⟨dep3, hdep3⟩ := ih7
          exact ⟨dep3, by
            have harith : i + 1 + f + 1 = i + (f + 1) + 1 := by omega
            rw [harith] at hdep3
            exact hdep3⟩
        · rw [getGo_eq]
          have hsl : (getE l' index).get (key i) = (getE l index).get (key i) := by
            rw [ih3 index hlt]
          rw [hsl, if_neg h0, if_neg (by rw [hint]; exact fun hc => hc rfl)]
          exact ih8

/-- Unpacking a successful checked insert into a successful loop run. -/
theorem insert_ok_elim (t : BinTrie) (item : Nat) (key : Nat → Bool)
    (lookup : Nat → Nat → Bool) (t' : BinTrie) (rep : Option Nat)
    (h : t.insert item key lookup = .ok (t', rep)) :
    item &&& HIGH = 0 ∧ t'.depth = t.depth ∧
    insertGo item key lookup t.internals 0 0 (t.depth - 1) =
      .ok (t'.internals, rep) := by
  unfold BinTrie.insert at h
  by_cases hbit : item &&& HIGH ≠ 0
  · rw [if_pos hbit] at h
    exact absurd h (by simp)
  · rw [if_neg hbit] at h
    rcases hi : insertGo item key lookup t.internals 0 0 (t.depth - 1) with e | ok
    · rw [hi] at h
      exact absurd h (by simp)
    · obtain ⟨l2, rep2⟩ := ok
      rw [hi] at h
      simp only [Except.ok.injEq, Prod.mk.injEq] at h
      obtain ⟨h1, h2⟩ := h
      refine ⟨not_not.mp hbit, ?_, ?_⟩
      · rw [← h1]
      · rw [← h1, ← h2]

/-- Every reachable trie state satisfies the combined invariant. -/
theorem reachable_inv : ∀ t, Reachable t → INV t := by
  intro t h
  induction h with
  | base d t0 hd =>
    unfold BinTrie.new_depth at hd
    by_cases h0 : 0 < d
    · rw [if_pos h0] at hd
      simp only [Option.some.injEq] at hd
      subst hd
      refine ⟨h0, Nat.le_refl 1, by show (1:Nat) ≤ 2 ^ 31; norm_num, ?_, ?_, ?_, ?_⟩
      · intro j b hj
        have hj0 : j = 0 := by
          simp at hj
          exact hj
        subst hj0
        cases b
        · show (getE [(⟨0, 0⟩ : Internal)] 0).get false < 2 ^ 32
          decide
        · show (getE [(⟨0, 0⟩ : Internal)] 0).get true < 2 ^ 32
          decide
      · intro j b hj hne hint
        have hj0 : j = 0 := by
          simp at hj
          exact hj
        subst hj0
        cases b <;> exact absurd rfl hne
      · show List.Perm [] []
        exact List.Perm.refl []
      · exact ⟨fun _ => 0, rfl, by
          intro j b hj hne hint
          have hj0 : j = 0 := by
            simp at hj
            exact hj
          subst hj0
          cases b <;> exact absurd rfl hne⟩
    · rw [if_neg h0] at hd
      exact absurd hd (by simp)
  | step t t' item key lookup rep hr h32 hins ih =>
    obtain ⟨hbit, hdeq, hrun⟩ := insert_ok_elim t item key lookup t' rep hins
    obtain ⟨dep, hdep⟩ := ih.strat
    have hsd : StratOK (0 + (t.depth - 1) + 1) t.internals dep := by
      have : 0 + (t.depth - 1) + 1 = t.depth := by
        have := ih.depth_pos
        omega
      rw [this]
      exact hdep
    obtain ⟨m1, m2, m3, m4, m5, m6, m7, m8⟩ :=
      insertGo_main item key lookup hbit h32 (t.depth - 1) t.internals 0 0 dep
        t'.internals rep ih.forw ih.bound ih.perm hsd ih.len_pos ih.len_le
        hdep.1 hrun
    have hd' : 0 + (t.depth - 1) + 1 = t.depth := by
      have := ih.depth_pos
      omega
    refine ⟨hdeq ▸ ih.depth_pos, le_trans ih.len_pos m1, m2, m5, m4, m6, ?_⟩
    obtain ⟨dep2, hdep2⟩ := m7
    rw [hd'] at hdep2
    exact ⟨dep2, hdeq ▸ hdep2⟩

/-- C5: in every reachable trie state every slot value with the tag bit
clear and nonzero is a strictly in-range node index (in fact strictly
larger than the index of the node holding it, and never the root's 0),
and a successful insert never shrinks the node store. -/
theorem c5_store_index_invariant :
    ∀ t, Reachable t →
    (∀ j b, j < t.internals.length →
      (getE t.internals j).get b &&& HIGH = 0 → (getE t.internals j).get b ≠ 0 →
      0 < (getE t.internals j).get b ∧
        (getE t.internals j).get b < t.internals.length) ∧
    (∀ item key lookup t' rep, item < 2 ^ 32 →
      t.insert item key lookup = .ok (t', rep) →
      t.internals.length ≤ t'.internals.length) := by
  intro t hr
  have inv := reachable_inv t hr
  constructor
  · intro j b hj hint hne
    obtain ⟨h1, h2⟩ := inv.forw j b hj hne hint
    exact ⟨Nat.pos_of_ne_zero hne, h2⟩
  · intro item key lookup t' rep h32 hins
    obtain ⟨hbit, hdeq, hrun⟩ := insert_ok_elim t item key lookup t' rep hins
    obtain ⟨dep, hdep⟩ := inv.strat
    have hsd : StratOK (0 + (t.depth - 1) + 1) t.internals dep := by
      have : 0 + (t.depth - 1) + 1 = t.depth := by
        have := inv.depth_pos
        omega
      rw [this]
      exact hdep
    exact (insertGo_main item key lookup hbit h32 (t.depth - 1) t.internals 0 0 dep
      t'.internals rep inv.forw inv.bound inv.perm hsd inv.len_pos inv.len_le
      hdep.1 hrun).1

/-- C5 witness: the freshly constructed trie is reachable, its root slots
trivially satisfy the index bound, and one concrete insert grows the store. -/
theorem c5_witness :
    Reachable BinTrie.new ∧
    BinTrie.new.internals.length ≤
      ({ internals := [⟨0x80000005, 0⟩], depth := 8192 } : BinTrie).internals.length :=
  ⟨Reachable.base 8192 BinTrie.new rfl,
   (c5_store_index_invariant BinTrie.new (Reachable.base 8192 BinTrie.new rfl)).2
     5 (fun _ => false) (fun _ _ => false)
     { internals := [⟨0x80000005, 0⟩], depth := 8192 } none (by norm_num) rfl⟩

/-- C1: on any reachable trie, a payload (any `u32` accepted by the checked
insert) is immediately retrievable by `get` with the same key function that
inserted it; no consistency condition on the lookup callback and no
proviso about other items is needed for the freshly inserted payload. -/
theorem c1_insert_get_roundtrip :
    ∀ (t : BinTrie) item (key : Nat → Bool) lookup t' rep,
    Reachable t → item < 2 ^ 32 →
    t.insert item key lookup = .ok (t', rep) →
    t'.get key = some item := by
  intro t item key lookup t' rep hr h32 hins
  have inv := reachable_inv t hr
  obtain ⟨hbit, hdeq, hrun⟩ := insert_ok_elim t item key lookup t' rep hins
  obtain ⟨dep, hdep⟩ := inv.strat
  have hsd : StratOK (0 + (t.depth - 1) + 1) t.internals dep := by
    have : 0 + (t.depth - 1) + 1 = t.depth := by
      have := inv.depth_pos
      omega
    rw [this]
    exact hdep
  have m8 := (insertGo_main item key lookup hbit h32 (t.depth - 1) t.internals 0 0 dep
    t'.internals rep inv.forw inv.bound inv.perm hsd inv.len_pos inv.len_le
    hdep.1 hrun).2.2.2.2.2.2.2
  unfold BinTrie.get
  rw [hdeq]
  have : t.depth - 1 + 1 = t.depth := by
    have := inv.depth_pos
    omega
  rw [← this]
  exact m8

/-- C1 witness: inserting 5 under the constant-false key into the fresh trie
and reading it back. -/
theorem c1_witness :
    Reachable BinTrie.new ∧ (5:Nat) < 2 ^ 32 ∧
    ({ internals := [⟨0x80000005, 0⟩], depth := 8192 } : BinTrie).get
      (fun _ => false) = some 5 :=
  ⟨Reachable.base 8192 BinTrie.new rfl, by norm_num,
   c1_insert_get_roundtrip BinTrie.new 5 (fun _ => false) (fun _ _ => false)
     { internals := [⟨0x80000005, 0⟩], depth := 8192 } none
     (Reachable.base 8192 BinTrie.new rfl) (by norm_num) rfl⟩

/-- `getGo` only consults key bits at the levels it walks through. -/
theorem getGo_congr (l : List Internal) (key1 key2 : Nat → Bool) :
    ∀ fuel index i, (∀ j, i ≤ j → j < i + fuel → key1 j = key2 j) →
    getGo l key1 index i fuel = getGo l key2 index i fuel := by
  intro fuel
  induction fuel with
  | zero => intro index i h; rfl
  | succ f ih =>
    intro index i h
    rw [getGo_eq, getGo_eq, h i (le_refl i) (by omega)]
    by_cases h0 : (getE l index).get (key2 i) = 0
    · rw [if_pos h0, if_pos h0]
    · rw [if_neg h0, if_neg h0]
      by_cases hleaf : (getE l index).get (key2 i) &&& HIGH ≠ 0
      · rw [if_pos hleaf, if_pos hleaf]
      · rw [if_neg hleaf, if_neg hleaf]
        exact ih _ (i + 1) (fun j hj1 hj2 => h j (by omega) (by omega))

/-- The store produced by the splitting step keeps pointers forward. -/
theorem split_forward (l : List Internal) (index : Nat) (pos : Bool) (lp : Bool)
    (hidx : index < l.length)
    (hleaf : (getE l index).get pos &&& HIGH ≠ 0) (hf : Forward l) :
    Forward ((l ++ [(default : Internal).set lp ((getE l index).get pos)]).set index
      ((getE (l ++ [(default : Internal).set lp ((getE l index).get pos)]) index).set
        pos l.length)) := by
  set nn := (default : Internal).set lp ((getE l index).get pos) with hnn
  set l2 := (l ++ [nn]).set index ((getE (l ++ [nn]) index).set pos l.length) with hl2
  have f1 : getE (l ++ [nn]) index = getE l index := getE_append_left l [nn] index hidx
  have f2 : l2.length = l.length + 1 := by
    rw [hl2, List.length_set, List.length_append]
    rfl
  have f3 : getE l2 index = (getE l index).set pos l.length := by
    rw [hl2, f1, getE_set_same _ _ _ (by rw [List.length_append]; omega)]
  have f4 : getE l2 l.length = nn := by
    rw [hl2, getE_set_other _ _ _ _ (by omega), getE_append_right]
  have f5 : ∀ j, j < l.length → j ≠ index → getE l2 j = getE l j := by
    intro j hj hji
    rw [hl2, getE_set_other _ _ _ _ (fun he => hji he.symm),
      getE_append_left l [nn] j hj]
  intro j b hj hne hint
  rw [f2] at hj
  by_cases hji : j = index
  · subst hji
    rw [f3] at hne hint ⊢
    by_cases hbp : b = pos
    · subst hbp
      rw [Internal.get_set_same] at hne hint ⊢
      rw [f2]
      omega
    · rw [Internal.get_set_other _ _ _ _ hbp] at hne hint ⊢
      have := hf j b hidx hne hint
      rw [f2]
      omega
  · by_cases hjl : j = l.length
    · subst hjl
      rw [f4, hnn] at hne hint
      by_cases hbl : b = lp
      · subst hbl
        rw [Internal.get_set_same] at hint
        exact absurd hint hleaf
      · rw [Internal.get_set_other _ _ _ _ hbl, default_get] at hne
        exact absurd rfl hne
    · have hjlt : j < l.length := by omega
      rw [f5 j hjlt hji] at hne hint ⊢
      have := hf j b hjlt hne hint
      rw [f2]
      omega

/-- When the key path leads to the leaf holding `q` and the lookup callback
reproduces `q`'s key bits at each deeper level, a successful insert along
the same key collides with `q` all the way to the depth ceiling and returns
it as the replaced payload. -/
theorem insertGo_cascade (item : Nat) (key : Nat → Bool) (lookup : Nat → Nat → Bool) :
    ∀ fuel (l : List Internal) (index i : Nat) (q : Nat) (l' : List Internal)
      (rep : Option Nat),
    Forward l → index < l.length → l.length ≤ 2 ^ 31 →
    (∀ j, i < j → j ≤ i + fuel → lookup q j = key j) →
    getGo l key index i (fuel + 1) = some q →
    insertGo item key lookup l index i fuel = .ok (l', rep) →
    rep = some q := by
  intro fuel
  induction fuel with
  | zero =>
    intro l index i q l' rep hf hidx hlen hcons hget hrun
    rw [getGo_eq] at hget
    rw [insertGo_zero] at hrun
    by_cases h0 : (getE l index).get (key i) = 0
    · rw [if_pos h0] at hget
      exact absurd hget (by simp)
    · rw [if_neg h0] at hget
      by_cases hleaf : (getE l index).get (key i) &&& HIGH ≠ 0
      · rw [if_pos hleaf] at hget
        simp only [Option.some.injEq] at hget
        simp only [Except.ok.injEq, Prod.mk.injEq] at hrun
        obtain ⟨_, hrep⟩ := hrun
        rw [← hrep, if_pos h0, hget]
      · rw [if_neg hleaf] at hget
        rw [getGo] at hget
        exact absurd hget (by simp)
  | succ f ih =>
    intro l index i q l' rep hf hidx hlen hcons hget hrun
    rw [getGo_eq] at hget
    rw [insertGo_succ] at hrun
    by_cases h0 : (getE l index).get (key i) = 0
    · rw [if_pos h0] at hget
      exact absurd hget (by simp)
    · rw [if_neg h0] at hget hrun
      by_cases hleaf : (getE l index).get (key i) &&& HIGH ≠ 0
      · rw [if_pos hleaf] at hget hrun
        simp only [Option.some.injEq] at hget
        by_cases hov : (l.length % 2 ^ 32) &&& HIGH ≠ 0
        · rw [if_pos hov] at hrun
          exact absurd hrun (by simp)
        · rw [if_neg hov] at hrun
          have hlen32 : l.length < 2 ^ 32 := by omega
          have hmod : l.length % 2 ^ 32 = l.length := Nat.mod_eq_of_lt hlen32
          rw [hmod] at hrun
          have hov' : l.length &&& HIGH = 0 := by
            rw [← hmod]
            exact not_not.mp hov
          have hlenlt : l.length < 2 ^ 31 := by
            rcases Nat.lt_or_ge l.length (2 ^ 31) with h | h
            · exact h
            · exact absurd hov'
                ((and_high_ne_iff _).mpr
                  (by
                    have he : l.length = 2 ^ 31 := by omega
                    rw [he]
                    exact Nat.testBit_two_pow_self))
          set pos := key i with hpos
          set m := (getE l index).get pos with hm
          set nn := (default : Internal).set (lookup (m &&& MASK) (i + 1)) m with hnn
          set l2 := (l ++ [nn]).set index ((getE (l ++ [nn]) index).set pos l.length)
            with hl2
          have hf2 : Forward l2 :=
            split_forward l index pos (lookup (m &&& MASK) (i + 1)) hidx hleaf hf
          have f4 : getE l2 l.length = nn := by
            rw [hl2, getE_set_other _ _ _ _ (by omega), getE_append_right]
          have hget2 : getGo l2 key l.length (i + 1) (f + 1) = some q := by
            rcases f with _ | f0
            · -- no loop iterations remain: fuel 1 reads the relocated leaf
              rw [getGo_eq, f4, hnn, hget, hcons (i + 1) (by omega) (by omega),
                Internal.get_set_same, if_neg h0, if_pos hleaf, hget]
            · rw [getGo_eq, f4, hnn, hget, hcons (i + 1) (by omega) (by omega),
                Internal.get_set_same, if_neg h0, if_pos hleaf, hget]
          have hlength2 : l2.length = l.length + 1 := by
            rw [hl2, List.length_set, List.length_append]
            rfl
          exact ih l2 l.length (i + 1) q l' rep hf2 (by omega) (by omega)
            (fun j hj1 hj2 => hcons j (by omega) (by omega)) hget2 hrun
      · rw [if_neg hleaf] at hget hrun
        have hint : (getE l index).get (key i) &&& HIGH = 0 := not_not.mp hleaf
        obtain ⟨hlt, hub⟩ := hf index (key i) hidx h0 hint
        exact ih l ((getE l index).get (key i)) (i + 1) q l' rep hf hub hlen
          (fun j hj1 hj2 => hcons j (by omega) (by omega)) hget hrun

/-- C2: on a reachable trie, inserting `p1` and then `p2` under key
functions that agree at every depth position, with the second lookup
callback reproducing that key for `p1`, makes the second insert return
`some p1` (the dislodged occupant) while a subsequent `get` under that key
returns `p2`; and the depth-ceiling write returns `none` exactly when the
final slot was empty. -/
theorem c2_depth_ceiling_overwrite :
    (∀ (t : BinTrie) (p1 p2 : Nat) (key1 key2 : Nat → Bool)
      (lk1 lk2 : Nat → Nat → Bool) (t1 : BinTrie) (r1 : Option Nat)
      (t2 : BinTrie) (r2 : Option Nat),
      Reachable t → p1 < 2 ^ 32 → p2 < 2 ^ 32 →
      (∀ j, j < t.depth → key1 j = key2 j) →
      (∀ j, j < t.depth → lk2 p1 j = key2 j) →
      t.insert p1 key1 lk1 = .ok (t1, r1) →
      t1.insert p2 key2 lk2 = .ok (t2, r2) →
      r2 = some p1 ∧ t2.get key2 = some p2) ∧
    (∀ (l : List Internal) (index i item : Nat) (key : Nat → Bool)
      (lookup : Nat → Nat → Bool),
      (getE l index).get (key i) = 0 →
      insertGo item key lookup l index i 0 =
        .ok (l.set index ((getE l index).set (key i) (item ||| HIGH)), none)) := by
  constructor
  · intro t p1 p2 key1 key2 lk1 lk2 t1 r1 t2 r2 hr h1 h2 hkey hlk hins1 hins2
    have inv := reachable_inv t hr
    have hr1 : Reachable t1 := Reachable.step t t1 p1 key1 lk1 r1 hr h1 hins1
    have inv1 := reachable_inv t1 hr1
    obtain ⟨hbit1, hdeq1, hrun1⟩ := insert_ok_elim t p1 key1 lk1 t1 r1 hins1
    obtain ⟨hbit2, hdeq2, hrun2⟩ := insert_ok_elim t1 p2 key2 lk2 t2 r2 hins2
    obtain ⟨dep, hdep⟩ := inv.strat
    have hsd : StratOK (0 + (t.depth - 1) + 1) t.internals dep := by
      have : 0 + (t.depth - 1) + 1 = t.depth := by
        have := inv.depth_pos
        omega
      rw [this]
      exact hdep
    have m8 := (insertGo_main p1 key1 lk1 hbit1 h1 (t.depth - 1) t.internals 0 0 dep
      t1.internals r1 inv.forw inv.bound inv.perm hsd inv.len_pos inv.len_le
      hdep.1 hrun1).2.2.2.2.2.2.2
    have hget1 : getGo t1.internals key2 0 0 (t.depth - 1 + 1) = some p1 := by
      rw [← getGo_congr t1.internals key1 key2 (t.depth - 1 + 1) 0 0
        (fun j hj1 hj2 => hkey j (by
          have := inv.depth_pos
          omega))]
      exact m8
    have hd1 : t1.depth - 1 = t.depth - 1 := by rw [hdeq1]
    have hcas := insertGo_cascade p2 key2 lk2 (t1.depth - 1) t1.internals 0 0 p1
      t2.internals r2 inv1.forw inv1.len_pos inv1.len_le
      (fun j hj1 hj2 => hlk j (by
        have := inv.depth_pos
        rw [hd1] at hj2
        omega))
      (by rw [hd1]; exact hget1) hrun2
    exact ⟨hcas, c1_insert_get_roundtrip t1 p2 key2 lk2 t2 r2 hr1 h2 hins2⟩
  · intro l index i item key lookup h
    rw [insertGo_zero, h, if_neg (fun hc => hc rfl)]

/-- C2 witness: in a depth-2 trie, inserting 5 then 6 under the constant
`false` key dislodges 5 and leaves 6 retrievable; the first insert of each
payload into an empty final slot returned `none`. -/
theorem c2_witness :
    some (5:Nat) = some 5 ∧
    ({ internals := [⟨1, 0⟩, ⟨0x80000006, 0⟩], depth := 2 } : BinTrie).get
      (fun _ => false) = some 6 :=
  c2_depth_ceiling_overwrite.1 { internals := [⟨0, 0⟩], depth := 2 } 5 6
    (fun _ => false) (fun _ => false) (fun _ _ => false) (fun _ _ => false)
    { internals := [⟨0x80000005, 0⟩], depth := 2 } none
    { internals := [⟨1, 0⟩, ⟨0x80000006, 0⟩], depth := 2 } (some 5)
    (Reachable.base 2 { internals := [⟨0, 0⟩], depth := 2 } rfl)
    (by norm_num) (by norm_num) (fun j hj => rfl) (fun j hj => rfl) rfl rfl

/-! The depth-first reference walk: unfolding and fuel stability. -/

theorem dfsNode_eq (l : List Internal) (fuel index : Nat) :
    dfsNode l (fuel + 1) index =
      (index :: ((dSlot l fuel (getE l index).s0).1 ++
          (dSlot l fuel (getE l index).s1).1),
       (dSlot l fuel (getE l index).s0).2.1 ++ (dSlot l fuel (getE l index).s1).2.1,
       3 + (dSlot l fuel (getE l index).s0).2.2 +
         (dSlot l fuel (getE l index).s1).2.2) := by
  rw [dfsNode]
  rfl

theorem dSlot_zero (l : List Internal) (fuel : Nat) : dSlot l fuel 0 = ([], [], 0) := by
  rw [dSlot, if_pos rfl]

theorem dSlot_leaf (l : List Internal) (fuel : Nat) (v : Nat) (h : v &&& HIGH ≠ 0)
    (h0 : v ≠ 0) : dSlot l fuel v = ([], [v &&& MASK], 0) := by
  rw [dSlot, if_neg h0, if_pos h]

theorem dSlot_internal (l : List Internal) (fuel : Nat) (v : Nat) (h0 : v ≠ 0)
    (hi : v &&& HIGH = 0) : dSlot l fuel v = dfsNode l fuel v := by
  rw [dSlot, if_neg h0, if_neg (by rw [hi]; exact fun hc => hc rfl)]

theorem slotGet_s0 (n : Internal) : n.s0 = n.get false := rfl

theorem slotGet_s1 (n : Internal) : n.s1 = n.get true := rfl

theorem dfsNode_stable (l : List Internal) (hf : Forward l) :
    ∀ fuel index, index < l.length → l.length - index ≤ fuel →
    dfsNode l (fuel + 1) index = dfsNode l fuel index := by
  intro fuel
  induction fuel with
  | zero =>
    intro index hidx hle
    omega
  | succ f ih =>
    intro index hidx hle
    rw [dfsNode_eq, dfsNode_eq]
    have hstep : ∀ b : Bool, dSlot l (f + 1) ((getE l index).get b) =
        dSlot l f ((getE l index).get b) := by
      intro b
      by_cases h0 : (getE l index).get b = 0
      · rw [h0, dSlot_zero, dSlot_zero]
      · by_cases hleaf : (getE l index).get b &&& HIGH ≠ 0
        · rw [dSlot_leaf l _ _ hleaf h0, dSlot_leaf l _ _ hleaf h0]
        · have hi := not_not.mp hleaf
          obtain ⟨hlt, hub⟩ := hf index b hidx h0 hi
          rw [dSlot_internal l _ _ h0 hi, dSlot_internal l _ _ h0 hi]
          exact ih _ hub (by omega)
    rw [slotGet_s0, slotGet_s1, hstep false, hstep true]

theorem dfsNode_stable_ge (l : List Internal) (hf : Forward l) (index : Nat)
    (hidx : index < l.length) :
    ∀ f g, l.length - index ≤ f → f ≤ g → dfsNode l f index = dfsNode l g index := by
  intro f g hle hfg
  induction g, hfg using Nat.le_induction with
  | base => rfl
  | succ k hfk ih =>
    rw [ih, ← dfsNode_stable l hf k index hidx (by omega)]

theorem dSlot_stable_ge (l : List Internal) (hf : Forward l) (v f g : Nat)
    (hcond : v ≠ 0 → v &&& HIGH = 0 →
      v < l.length ∧ l.length - v ≤ f ∧ l.length - v ≤ g) :
    dSlot l f v = dSlot l g v := by
  by_cases h0 : v = 0
  · rw [h0, dSlot_zero, dSlot_zero]
  · by_cases hleaf : v &&& HIGH ≠ 0
    · rw [dSlot_leaf l _ _ hleaf h0, dSlot_leaf l _ _ hleaf h0]
    · have hi := not_not.mp hleaf
      obtain ⟨hlt, hf1, hg1⟩ := hcond h0 hi
      rw [dSlot_internal l _ _ h0 hi, dSlot_internal l _ _ h0 hi]
      have e1 := dfsNode_stable_ge l hf v hlt (l.length - v) f (le_refl _) hf1
      have e2 := dfsNode_stable_ge l hf v hlt (l.length - v) g (le_refl _) hg1
      rw [← e1, ← e2]

/-- The leaves of the walk are, as a multiset, the leaf slots of the
visited nodes. -/
theorem dfs_leaves_perm (l : List Internal) (hf : Forward l) :
    ∀ fuel index, index < l.length → l.length - index ≤ fuel →
    ((dfsNode l fuel index).2.1).Perm
      (((dfsNode l fuel index).1).flatMap (nodeLeaves l)) := by
  intro fuel
  induction fuel with
  | zero =>
    intro index hidx hle
    omega
  | succ f ih =>
    intro index hidx hle
    rw [dfsNode_eq]
    have hslot : ∀ b : Bool,
        ((dSlot l f ((getE l index).get b)).2.1).Perm
          (leafOf ((getE l index).get b) ++
            ((dSlot l f ((getE l index).get b)).1).flatMap (nodeLeaves l)) := by
      intro b
      by_cases h0 : (getE l index).get b = 0
      · rw [h0, dSlot_zero]
        show List.Perm [] (leafOf 0 ++ [])
        rw [show leafOf 0 = [] from rfl]
        exact List.Perm.refl []
      · by_cases hleaf : (getE l index).get b &&& HIGH ≠ 0
        · rw [dSlot_leaf l _ _ hleaf h0]
          show List.Perm [(getE l index).get b &&& MASK] _
          rw [show leafOf ((getE l index).get b) =
            [(getE l index).get b &&& MASK] from by
              unfold leafOf
              rw [if_pos ⟨h0, hleaf⟩]]
          exact List.Perm.refl _
        · have hi := not_not.mp hleaf
          obtain ⟨hlt, hub⟩ := hf index b hidx h0 hi
          rw [dSlot_internal l _ _ h0 hi]
          rw [show leafOf ((getE l index).get b) = [] from by
            unfold leafOf
            rw [if_neg (by rintro ⟨a, c⟩; exact hleaf c)]]
          rw [List.nil_append]
          exact ih _ hub (by omega)
    rw [List.flatMap_cons, List.flatMap_append]
    have h0 := hslot false
    have h1 := hslot true
    rw [← slotGet_s0] at h0
    rw [← slotGet_s1] at h1
    rw [← Multiset.coe_eq_coe] at h0 h1 ⊢
    simp only [← Multiset.coe_add] at h0 h1 ⊢
    rw [h0, h1]
    show _ = (↑(nodeLeaves l index) + _ : Multiset Nat)
    rw [show nodeLeaves l index = leafOf (getE l index).s0 ++ leafOf (getE l index).s1
      from rfl]
    simp only [← Multiset.coe_add]
    abel

/-! Locating child pointers by their slot coordinates. -/

theorem mem_childOf (w v : Nat) :
    v ∈ childOf w ↔ w = v ∧ v ≠ 0 ∧ v &&& HIGH = 0 := by
  unfold childOf
  by_cases h : w ≠ 0 ∧ w &&& HIGH = 0
  · rw [if_pos h]
    constructor
    · intro hv
      rcases List.mem_singleton.mp hv with rfl
      exact ⟨rfl, h.1, h.2⟩
    · rintro ⟨rfl, _, _⟩
      exact List.mem_singleton.mpr rfl
  · rw [if_neg h]
    constructor
    · intro hv
      exact absurd hv (List.not_mem_nil v)
    · rintro ⟨rfl, h1, h2⟩
      exact absurd ⟨h1, h2⟩ h

theorem mem_nodeChildren (n : Internal) (v : Nat) :
    v ∈ nodeChildren n ↔ ∃ b : Bool, n.get b = v ∧ v ≠ 0 ∧ v &&& HIGH = 0 := by
  unfold nodeChildren
  rw [List.mem_append, mem_childOf, mem_childOf]
  constructor
  · rintro (⟨h1, h2, h3⟩ | ⟨h1, h2, h3⟩)
    · exact ⟨false, h1, h2, h3⟩
    · exact ⟨true, h1, h2, h3⟩
  · rintro ⟨b, h1, h2, h3⟩
    cases b
    · exact Or.inl ⟨h1, h2, h3⟩
    · exact Or.inr ⟨h1, h2, h3⟩

theorem mem_childPointers (l : List Internal) (v : Nat) :
    v ∈ childPointers l ↔
      ∃ j b, j < l.length ∧ (getE l j).get b = v ∧ v ≠ 0 ∧ v &&& HIGH = 0 := by
  induction l with
  | nil =>
    constructor
    · intro h
      exact absurd h (List.not_mem_nil v)
    · rintro ⟨j, b, hj, _⟩
      exact absurd hj (by simp)
  | cons h0 t ih =>
    rw [childPointers_cons, List.mem_append, ih, mem_nodeChildren]
    constructor
    · rintro (⟨b, h1, h2, h3⟩ | ⟨j, b, hj, h1, h2, h3⟩)
      · exact ⟨0, b, by simp, h1, h2, h3⟩
      · exact ⟨j + 1, b, by simp; omega, h1, h2, h3⟩
    · rintro ⟨j, b, hj, h1, h2, h3⟩
      match j with
      | 0 => exact Or.inl ⟨b, h1, h2, h3⟩
      | j + 1 =>
        refine Or.inr ⟨j, b, ?_, h1, h2, h3⟩
        simp at hj
        omega

theorem count_childOf_self (v : Nat) (h0 : v ≠ 0) (hi : v &&& HIGH = 0) :
    (childOf v).count v = 1 := by
  rw [childOf_internal v h0 hi, List.count_singleton, if_pos (by simp)]

theorem count_nodeChildren_slot (n : Internal) (b : Bool) (v : Nat)
    (hb : n.get b = v) (h0 : v ≠ 0) (hi : v &&& HIGH = 0) :
    1 ≤ (nodeChildren n).count v := by
  unfold nodeChildren
  rw [List.count_append]
  cases b
  · rw [Internal.get_false] at hb
    rw [hb, count_childOf_self v h0 hi]
    omega
  · rw [Internal.get_true] at hb
    rw [hb, count_childOf_self v h0 hi]
    omega

theorem count_nodeChildren_two (n : Internal) (b c : Bool) (v : Nat)
    (hbc : b ≠ c) (hb : n.get b = v) (hc : n.get c = v)
    (h0 : v ≠ 0) (hi : v &&& HIGH = 0) :
    2 ≤ (nodeChildren n).count v := by
  unfold nodeChildren
  rw [List.count_append]
  have hs0 : n.s0 = v := by
    cases b
    · rw [← Internal.get_false n]; exact hb
    · cases c
      · rw [← Internal.get_false n]; exact hc
      · exact absurd rfl hbc
  have hs1 : n.s1 = v := by
    cases b
    · cases c
      · exact absurd rfl hbc
      · rw [← Internal.get_true n]; exact hc
    · rw [← Internal.get_true n]; exact hb
  rw [hs0, hs1, count_childOf_self v h0 hi]

theorem count_childPointers_slot (l : List Internal) (v : Nat)
    (h0 : v ≠ 0) (hi : v &&& HIGH = 0) :
    ∀ p b, p < l.length → (getE l p).get b = v →
    1 ≤ (childPointers l).count v := by
  intro p b hp hpb
  exact List.count_pos_iff.mpr
    ((mem_childPointers l v).mpr ⟨p, b, hp, hpb, h0, hi⟩)

theorem count_childPointers_two (l : List Internal) (v : Nat)
    (h0 : v ≠ 0) (hi : v &&& HIGH = 0) :
    ∀ p b j c, p < l.length → j < l.length →
    (getE l p).get b = v → (getE l j).get c = v → ¬(p = j ∧ b = c) →
    2 ≤ (childPointers l).count v := by
  induction l with
  | nil =>
    intro p b j c hp
    simp at hp
  | cons hd t ih =>
    intro p b j c hp hj hpb hjc hne
    rw [childPointers_cons, List.count_append]
    match p, j with
    | 0, 0 =>
      have hbc : b ≠ c := fun he => hne ⟨rfl, he⟩
      have := count_nodeChildren_two hd b c v hbc hpb hjc h0 hi
      omega
    | 0, j + 1 =>
      have hhd := count_nodeChildren_slot hd b v hpb h0 hi
      have hcp := count_childPointers_slot t v h0 hi j c (by simp at hj; omega) hjc
      omega
    | p + 1, 0 =>
      have hhd := count_nodeChildren_slot hd c v hjc h0 hi
      have hcp := count_childPointers_slot t v h0 hi p b (by simp at hp; omega) hpb
      omega
    | p + 1, j + 1 =>
      have := ih p b j c (by simp at hp; omega) (by simp at hj; omega) hpb hjc
        (fun ⟨he1, he2⟩ => hne ⟨by rw [he1], he2⟩)
      omega

theorem dSlot_fst_nil (l : List Internal) (f : Nat) (w : Nat)
    (hw : childOf w = []) : (dSlot l f w).1 = [] := by
  by_cases h0 : w = 0
  · rw [h0, dSlot_zero]
  · by_cases hleaf : w &&& HIGH ≠ 0
    · rw [dSlot_leaf l f w hleaf h0]
    · have := childOf_internal w h0 (not_not.mp hleaf)
      rw [hw] at this
      exact absurd this (by simp)

/-- A node with no internal slots contributes only itself to the walk. -/
theorem dfs_last (l : List Internal) (F0 K : Nat)
    (hlast : ∀ c : Bool, childOf ((getE l K).get c) = []) :
    (dfsNode l (F0 + 1) K).1 = [K] := by
  rw [dfsNode_eq, slotGet_s0, slotGet_s1, dSlot_fst_nil l F0 _ (hlast false),
    dSlot_fst_nil l F0 _ (hlast true)]
  rfl

theorem getE_take (l : List Internal) (K j : Nat) (hj : j < K) :
    getE (l.take K) j = getE l j := by
  unfold getE
  rw [List.getD_eq_getElem?_getD, List.getD_eq_getElem?_getD, List.getElem?_take,
    if_pos hj]

theorem childPointers_take_last (l : List Internal) (K : Nat)
    (hlen : l.length = K + 1) :
    childPointers l = childPointers (l.take K) ++ nodeChildren (getE l K) := by
  have hdrop : l.drop K = [getE l K] := by
    rw [List.drop_eq_getElem_cons (by omega)]
    have h2 : l.drop (K + 1) = [] := List.drop_of_length_le (by omega)
    rw [h2]
    have : l[K] = getE l K := by
      unfold getE
      rw [List.getD_eq_getElem?_getD, List.getElem?_eq_getElem (by omega)]
      rfl
    rw [this]
  conv_lhs => rw [← List.take_append_drop K l]
  unfold childPointers
  rw [List.flatMap_append, hdrop]
  simp [nodeChildren]

/-- Removing an internal reference from a slot (replacing it by a leaf)
takes exactly that one pointer out of the node's stock. -/
theorem nodeChildren_unset_child (n : Internal) (pos : Bool) (w : Nat)
    (hw : childOf w = []) (hv : childOf (n.get pos) = [n.get pos]) :
    (nodeChildren n).Perm (nodeChildren (n.set pos w) ++ [n.get pos]) := by
  cases pos
  · rw [Internal.get_false] at hv ⊢
    show (childOf n.s0 ++ childOf n.s1).Perm ((childOf w ++ childOf n.s1) ++ [n.s0])
    rw [hv, hw]
    rw [← Multiset.coe_eq_coe]
    simp only [← Multiset.coe_add]
    abel
  · rw [Internal.get_true] at hv ⊢
    show (childOf n.s0 ++ childOf n.s1).Perm ((childOf n.s0 ++ childOf w) ++ [n.s1])
    rw [hv, hw]
    rw [← Multiset.coe_eq_coe]
    simp only [← Multiset.coe_add]
    abel

/-- Replacing the unique pointer to the pointer-free last node by a leaf
changes the depth-first visit list only by removing one occurrence of the
last node per visit of its parent. -/
theorem dfs_splice (l : List Internal) (K p : Nat) (b : Bool)
    (hf : Forward l) (hlen : l.length = K + 1)
    (hp : p < K) (hpb : (getE l p).get b = K)
    (hK0 : K ≠ 0) (hKi : K &&& HIGH = 0)
    (huniq : ∀ j c, j < l.length → (getE l j).get c = K → j = p ∧ c = b)
    (hlast : ∀ c : Bool, childOf ((getE l K).get c) = []) :
    ∀ F idx, idx < K → l.length - idx ≤ F →
    ((dfsNode l F idx).1).Perm
      (((dfsNode ((l.take K).set p ((getE l p).set b HIGH)) F idx).1) ++
        List.replicate
          (((dfsNode ((l.take K).set p ((getE l p).set b HIGH)) F idx).1).count p)
          K) := by
  set l' := (l.take K).set p ((getE l p).set b HIGH) with hl'
  have hptake : p < (l.take K).length := by
    rw [List.length_take]
    omega
  have gep : getE l' p = (getE l p).set b HIGH := by
    rw [hl', getE_set_same _ _ _ hptake]
  have geq : ∀ j, j < K → j ≠ p → getE l' j = getE l j := by
    intro j hj hjp
    rw [hl', getE_set_other _ _ _ _ (fun he => hjp he.symm), getE_take l K j hj]
  have hval : ∀ idx, idx < K → ∀ c : Bool, ¬(idx = p ∧ c = b) →
      (getE l' idx).get c = (getE l idx).get c := by
    intro idx hidx c hc
    by_cases hip : idx = p
    · subst hip
      have hcb : c ≠ b := fun he => hc ⟨rfl, he⟩
      rw [gep, Internal.get_set_other _ _ _ _ hcb]
    · rw [geq idx hidx hip]
  intro F
  induction F with
  | zero =>
    intro idx hidx hfu
    omega
  | succ F ih =>
    intro idx hidx hfu
    have hslot : ∀ c : Bool, ¬(idx = p ∧ c = b) →
        ((dSlot l F ((getE l idx).get c)).1).Perm
          ((dSlot l' F ((getE l idx).get c)).1 ++
            List.replicate (((dSlot l' F ((getE l idx).get c)).1).count p) K) := by
      intro c hc
      by_cases h0 : (getE l idx).get c = 0
      · rw [h0, dSlot_zero, dSlot_zero]
        simp
      · by_cases hleaf : (getE l idx).get c &&& HIGH ≠ 0
        · rw [dSlot_leaf l F _ hleaf h0, dSlot_leaf l' F _ hleaf h0]
          simp
        · have hi := not_not.mp hleaf
          have hvK : (getE l idx).get c ≠ K := by
            intro he
            exact hc (huniq idx c (by omega) he)
          obtain ⟨hgt, hub⟩ := hf idx c (by omega) h0 hi
          have hvlt : (getE l idx).get c < K := by omega
          rw [dSlot_internal l F _ h0 hi, dSlot_internal l' F _ h0 hi]
          exact ih ((getE l idx).get c) hvlt (by omega)
    rw [dfsNode_eq, dfsNode_eq]
    simp only [slotGet_s0, slotGet_s1]
    by_cases hip : idx = p
    · have hFpos : 1 ≤ F := by omega
      obtain ⟨F0, rfl⟩ : ∃ F0, F = F0 + 1 := ⟨F - 1, by omega⟩
      have hbeq : (idx == p) = true := by
        rw [hip]
        simp
      have hlK : (dSlot l (F0 + 1) ((getE l idx).get b)).1 = [K] := by
        rw [hip, hpb, dSlot_internal l _ _ hK0 hKi, dfs_last l F0 K hlast]
      have hl'K : (dSlot l' (F0 + 1) ((getE l' idx).get b)).1 = [] := by
        rw [hip, gep, Internal.get_set_same,
          dSlot_leaf _ _ _ (by decide) (by decide)]
      have hnb : ¬(idx = p ∧ (!b) = b) := by
        rintro ⟨_, hc⟩
        cases b <;> simp at hc
      have hso := hslot (!b) hnb
      have hvo := hval idx hidx (!b) hnb
      cases b
      · rw [show ((!false : Bool)) = true by rfl] at hso hvo
        rw [hlK, hl'K, hvo]
        rw [List.count_cons, List.count_append, List.count_nil, hbeq, if_pos rfl,
          Nat.zero_add]
        rw [List.replicate_add]
        rw [← Multiset.coe_eq_coe] at hso ⊢
        simp only [← Multiset.cons_coe, ← Multiset.coe_add] at hso ⊢
        simp only [← Multiset.singleton_add]
        rw [hso]
        simp only [List.replicate_one, Multiset.coe_nil, Multiset.coe_singleton]
        abel
      · rw [show ((!true : Bool)) = false by rfl] at hso hvo
        rw [hlK, hl'K, hvo]
        rw [List.count_cons, List.count_append, List.count_nil, hbeq, if_pos rfl,
          Nat.add_zero]
        rw [List.replicate_add]
        rw [← Multiset.coe_eq_coe] at hso ⊢
        simp only [← Multiset.cons_coe, ← Multiset.coe_add] at hso ⊢
        simp only [← Multiset.singleton_add]
        rw [hso]
        simp only [List.replicate_one, Multiset.coe_nil, Multiset.coe_singleton]
        abel
    · have hsf := hslot false (fun hc => hip hc.1)
      have hst := hslot true (fun hc => hip hc.1)
      have hvf := hval idx hidx false (fun hc => hip hc.1)
      have hvt := hval idx hidx true (fun hc => hip hc.1)
      rw [hvf, hvt]
      rw [List.count_cons, List.count_append]
      have hbeq : (idx == p) = false := by
        simp only [beq_eq_false_iff_ne, ne_eq]
        exact hip
      rw [hbeq, if_neg (by decide), Nat.add_zero]
      rw [List.replicate_add]
      rw [← Multiset.coe_eq_coe] at hsf hst ⊢
      simp only [← Multiset.cons_coe, ← Multiset.coe_add] at hsf hst ⊢
      simp only [← Multiset.singleton_add]
      rw [hsf, hst]
      abel

theorem dSlot_fuel_zero_fst (l : List Internal) (v : Nat) : (dSlot l 0 v).1 = [] := by
  by_cases h0 : v = 0
  · rw [h0, dSlot_zero]
  · by_cases hleaf : v &&& HIGH ≠ 0
    · rw [dSlot_leaf l 0 v hleaf h0]
    · rw [dSlot_internal l 0 v h0 (not_not.mp hleaf)]
      rfl

/-- On a store whose pointers form a tree (each non-root node referenced
exactly once) the depth-first walk from the root visits every node exactly
once. -/
theorem visited_perm : ∀ n (l : List Internal), l.length = n → Forward l →
    ChildPerm l → 1 ≤ n → ((dfsNode l n 0).1).Perm (List.range n) := by
  intro n
  induction n using Nat.strong_induction_on with
  | _ n ih =>
    intro l hln hf hcp h1
    obtain ⟨K, rfl⟩ : ∃ K, n = K + 1 := ⟨n - 1, by omega⟩
    by_cases hK : K = 0
    · subst hK
      rw [dfsNode_eq, slotGet_s0, slotGet_s1, dSlot_fuel_zero_fst,
        dSlot_fuel_zero_fst]
      exact List.Perm.refl _
    · -- the last node holds no references
      have hlast : ∀ c : Bool, childOf ((getE l K).get c) = [] := by
        intro c
        unfold childOf
        rw [if_neg]
        rintro ⟨hn0, hni⟩
        obtain ⟨hgt, hub⟩ := hf K c (by omega) hn0 hni
        omega
      -- the unique slot referencing it
      have hrange : (childPointers l).Perm (List.range' 1 K) := by
        have : l.length - 1 = K := by omega
        rw [ChildPerm, this] at hcp
        exact hcp
      have hmem : K ∈ childPointers l :=
        hrange.mem_iff.mpr (List.mem_range'_1.mpr ⟨by omega, by omega⟩)
      obtain ⟨p, b, hplen, hpb, hK0, hKi⟩ := (mem_childPointers l K).mp hmem
      have hcount1 : (childPointers l).count K = 1 := by
        rw [hrange.count_eq]
        exact List.count_eq_one_of_mem (List.nodup_range' _ _) 
          (List.mem_range'_1.mpr ⟨by omega, by omega⟩)
      have hp : p < K := by
        rcases Nat.lt_or_ge p K with h | h
        · exact h
        · have hpK : p = K := by omega
          subst hpK
          obtain ⟨hgt, hub⟩ := hf p b hplen (by rw [hpb]; exact hK0)
            (by rw [hpb]; exact hKi)
          rw [hpb] at hgt
          omega
      have huniq : ∀ j c, j < l.length → (getE l j).get c = K → j = p ∧ c = b := by
        intro j c hj hjc
        by_contra hne
        have h2 := count_childPointers_two l K hK0 hKi j c p b hj hplen hjc hpb
          (fun ⟨he1, he2⟩ => hne ⟨he1.symm ▸ rfl, he2.symm ▸ rfl⟩)
        omega
      -- the truncated store with the reference replaced by a leaf
      set l' := (l.take K).set p ((getE l p).set b HIGH) with hl'
      have hlen' : l'.length = K := by
        rw [hl', List.length_set, List.length_take]
        omega
      have hptake : p < (l.take K).length := by
        rw [List.length_take]
        omega
      have gep : getE l' p = (getE l p).set b HIGH := by
        rw [hl', getE_set_same _ _ _ hptake]
      have geq : ∀ j, j < K → j ≠ p → getE l' j = getE l j := by
        intro j hj hjp
        rw [hl', getE_set_other _ _ _ _ (fun he => hjp he.symm), getE_take l K j hj]
      have hf' : Forward l' := by
        intro j c hj hne hint
        rw [hlen'] at hj
        by_cases hjp : j = p
        · subst hjp
          by_cases hcb : c = b
          · subst hcb
            rw [gep, Internal.get_set_same] at hint
            exact absurd hint (by decide)
          · rw [gep, Internal.get_set_other _ _ _ _ hcb] at hne hint ⊢
            obtain ⟨hgt, hub⟩ := hf j c (by omega) hne hint
            have hvK : (getE l j).get c ≠ K := by
              intro he
              exact hcb (huniq j c (by omega) he).2
            rw [hlen']
            omega
        · rw [geq j hj hjp] at hne hint ⊢
          obtain ⟨hgt, hub⟩ := hf j c (by omega) hne hint
          have hvK : (getE l j).get c ≠ K := by
            intro he
            exact hjp (huniq j c (by omega) he).1
          rw [hlen']
          omega
      have hcp' : ChildPerm l' := by
        have htake : childPointers l = childPointers (l.take K) ++
            nodeChildren (getE l K) := childPointers_take_last l K (by omega)
        have hnclast : nodeChildren (getE l K) = [] := by
          unfold nodeChildren
          rw [slotGet_s0, slotGet_s1, hlast false, hlast true]
          rfl
        rw [hnclast, List.append_nil] at htake
        have htakeperm : (childPointers (l.take K)).Perm (List.range' 1 K) := by
          rw [← htake]
          exact hrange
        have hsurg := childPointers_set (l.take K) p ((getE l p).set b HIGH) hptake
        rw [getE_take l K p hp, ← hl'] at hsurg
        have hremove : (nodeChildren (getE l p)).Perm
            (nodeChildren ((getE l p).set b HIGH) ++ [K]) := by
          have h := nodeChildren_unset_child (getE l p) b HIGH
            (childOf_leaf HIGH (by decide))
            (by rw [hpb]; exact childOf_internal K hK0 hKi)
          rw [hpb] at h
          exact h
        have hKsub : K - 1 + 1 = K := by omega
        have hr2 : (List.range' 1 K).Perm (List.range' 1 (K - 1) ++ [K]) := by
          conv_lhs => rw [← hKsub]
          rw [List.range'_concat]
          have h11 : 1 + 1 * (K - 1) = K := by omega
          rw [h11]
        unfold ChildPerm
        rw [hlen']
        rw [← Multiset.coe_eq_coe] at hsurg htakeperm hremove hr2 ⊢
        simp only [← Multiset.coe_add] at hsurg htakeperm hremove hr2 ⊢
        have e1 : (↑(childPointers l') + ↑([K] : List Nat) +
            ↑(nodeChildren ((getE l p).set b HIGH)) : Multiset Nat) =
            ↑(List.range' 1 (K - 1)) + ↑([K] : List Nat) +
              ↑(nodeChildren ((getE l p).set b HIGH)) := by
          calc (↑(childPointers l') + ↑([K] : List Nat) +
              ↑(nodeChildren ((getE l p).set b HIGH)) : Multiset Nat)
              = ↑(childPointers l') + ↑(nodeChildren (getE l p)) := by
                rw [hremove]
                abel
            _ = ↑(childPointers (l.take K)) +
                ↑(nodeChildren ((getE l p).set b HIGH)) := hsurg
            _ = ↑(List.range' 1 K) + ↑(nodeChildren ((getE l p).set b HIGH)) := by
                rw [htakeperm]
            _ = ↑(List.range' 1 (K - 1)) + ↑([K] : List Nat) +
                ↑(nodeChildren ((getE l p).set b HIGH)) := by
                rw [hr2]
        have e2 := add_right_cancel e1
        exact add_right_cancel e2
      -- splice against the truncated store and use the induction hypothesis
      have hsplice := dfs_splice l K p b hf (by omega) hp hpb hK0 hKi huniq hlast
        (K + 1) 0 (by omega) (by omega)
      have hstab : dfsNode l' (K + 1) 0 = dfsNode l' K 0 :=
        (dfsNode_stable_ge l' hf' 0 (by omega) K (K + 1)
          (by omega) (by omega)).symm
      rw [← hl', hstab] at hsplice
      have hIH := ih K (by omega) l' hlen' hf' hcp' (by omega)
      have hcnt : ((dfsNode l' K 0).1).count p = 1 := by
        rw [hIH.count_eq]
        exact List.count_eq_one_of_mem (List.nodup_range _)
          (List.mem_range.mpr (by omega))
      rw [hcnt, List.replicate_one] at hsplice
      have hfinal : ((dfsNode l' K 0).1 ++ [K]).Perm (List.range (K + 1)) := by
        rw [List.range_succ]
        exact hIH.append_right [K]
      exact hsplice.trans hfinal

/-! The items iterator machine against the reference walk. -/

theorem stackDen_cons (l : List Internal) (fr : List Nat) (rest : List (List Nat)) :
    stackDen l (fr :: rest) = frameDen l fr ++ stackDen l rest := by
  unfold stackDen
  rw [List.flatMap_cons]

theorem frameDen_cons (l : List Internal) (v : Nat) (vs : List Nat) :
    frameDen l (v :: vs) = slotDen l v ++ frameDen l vs := by
  unfold frameDen
  rw [List.flatMap_cons]

theorem stackCost_cons (l : List Internal) (fr : List Nat) (rest : List (List Nat)) :
    stackCost l (fr :: rest) = frameCost l fr + stackCost l rest := by
  unfold stackCost
  rw [List.map_cons, List.sum_cons]

theorem frameCost_cons (l : List Internal) (v : Nat) (vs : List Nat) :
    frameCost l (v :: vs) = frameCost l vs + (1 + slotCost l v) := by
  unfold frameCost
  rw [List.map_cons, List.sum_cons]
  ring

theorem frameCost_pos (l : List Internal) (fr : List Nat) : 1 ≤ frameCost l fr := by
  unfold frameCost
  omega

theorem slotDen_zero (l : List Internal) : slotDen l 0 = [] := by
  unfold slotDen
  rw [dSlot_zero]

theorem slotCost_zero (l : List Internal) : slotCost l 0 = 0 := by
  unfold slotCost
  rw [dSlot_zero]

theorem slotDen_leaf (l : List Internal) (v : Nat) (h : v &&& HIGH ≠ 0) (h0 : v ≠ 0) :
    slotDen l v = [v &&& MASK] := by
  unfold slotDen
  rw [dSlot_leaf _ _ _ h h0]

theorem slotCost_leaf (l : List Internal) (v : Nat) (h : v &&& HIGH ≠ 0) (h0 : v ≠ 0) :
    slotCost l v = 0 := by
  unfold slotCost
  rw [dSlot_leaf _ _ _ h h0]

theorem dSlot_internal_expand (l : List Internal) (hf : Forward l) (v : Nat)
    (h0 : v ≠ 0) (hi : v &&& HIGH = 0) (hv : v < l.length) :
    dSlot l l.length v =
      ((v :: ((dSlot l l.length (getE l v).s0).1 ++ (dSlot l l.length (getE l v).s1).1)),
       (dSlot l l.length (getE l v).s0).2.1 ++ (dSlot l l.length (getE l v).s1).2.1,
       3 + (dSlot l l.length (getE l v).s0).2.2 +
         (dSlot l l.length (getE l v).s1).2.2) := by
  have hv1 : 1 ≤ v := by omega
  have hlen2 : 2 ≤ l.length := by omega
  obtain ⟨L0, hL0⟩ : ∃ L0, l.length = L0 + 1 := ⟨l.length - 1, by omega⟩
  have hstep : ∀ b : Bool, dSlot l L0 ((getE l v).get b) =
      dSlot l l.length ((getE l v).get b) := by
    intro b
    apply dSlot_stable_ge l hf
    intro hw0 hwi
    obtain ⟨hgt, hub⟩ := hf v b hv hw0 hwi
    refine ⟨hub, by omega, by omega⟩
  rw [dSlot_internal l _ _ h0 hi, hL0, dfsNode_eq]
  rw [← hL0, slotGet_s0, slotGet_s1, hstep false, hstep true]

theorem stepIter_frame (l : List Internal) (v : Nat) (vs : List Nat)
    (rest : List (List Nat)) :
    stepIter l ((v :: vs) :: rest) =
      (if v = 0 then some (none, vs :: rest)
       else if v &&& HIGH ≠ 0 then some (some (v &&& MASK), vs :: rest)
       else some (none, [(getE l v).s0, (getE l v).s1] :: vs :: rest)) := rfl

theorem runIter_step (l : List Internal) (F : Nat) (s : List (List Nat))
    (y : Option Nat) (s' : List (List Nat)) (h : stepIter l s = some (y, s')) :
    runIter l (F + 1) s =
      (runIter l F s').map (fun L => y.elim L (fun x => x :: L)) := by
  rw [runIter, h]

theorem frameCost_nil (l : List Internal) : frameCost l [] = 1 := rfl

theorem frameDen_nil (l : List Internal) : frameDen l [] = [] := rfl

theorem runIter_den (l : List Internal) (hf : Forward l) :
    ∀ F s, (∀ fr, fr ∈ s → FrameOK l fr) → stackCost l s ≤ F →
    runIter l F s = some (stackDen l s) := by
  intro F
  induction F with
  | zero =>
    intro s hok hcost
    cases s with
    | nil =>
      rw [runIter, if_pos rfl]
      rfl
    | cons fr rest =>
      rw [stackCost_cons] at hcost
      have := frameCost_pos l fr
      omega
  | succ F ih =>
    intro s hok hcost
    cases s with
    | nil => rfl
    | cons fr rest =>
      rw [stackCost_cons] at hcost
      cases fr with
      | nil =>
        rw [runIter_step l F ([] :: rest) none rest rfl]
        rw [ih rest (fun fr2 hfr => hok fr2 (List.mem_cons_of_mem _ hfr))
          (by
            rw [frameCost_nil] at hcost
            omega)]
        rw [stackDen_cons, frameDen_nil, List.nil_append]
        rfl
      | cons v vs =>
        rw [frameCost_cons] at hcost
        have hok1 : ∀ fr2, fr2 ∈ (vs :: rest) → FrameOK l fr2 := by
          intro fr2 hfr
          rcases List.mem_cons.mp hfr with rfl | hfr2
          · intro w hw hw0 hwi
            exact hok (v :: fr2) (List.mem_cons_self _ _) w
              (List.mem_cons_of_mem _ hw) hw0 hwi
          · exact hok fr2 (List.mem_cons_of_mem _ hfr2)
        by_cases h0 : v = 0
        · have hstep : stepIter l ((v :: vs) :: rest) = some (none, vs :: rest) := by
            rw [stepIter_frame, if_pos h0]
          rw [runIter_step l F _ none (vs :: rest) hstep]
          rw [ih (vs :: rest) hok1
            (by
              rw [h0, slotCost_zero] at hcost
              rw [stackCost_cons]
              omega)]
          rw [stackDen_cons, stackDen_cons, frameDen_cons, h0, slotDen_zero,
            List.nil_append]
          rfl
        · by_cases hleaf : v &&& HIGH ≠ 0
          · have hstep : stepIter l ((v :: vs) :: rest) =
                some (some (v &&& MASK), vs :: rest) := by
              rw [stepIter_frame, if_neg h0, if_pos hleaf]
            rw [runIter_step l F _ (some (v &&& MASK)) (vs :: rest) hstep]
            rw [ih (vs :: rest) hok1
              (by
                rw [slotCost_leaf l v hleaf h0] at hcost
                rw [stackCost_cons]
                omega)]
            rw [stackDen_cons, stackDen_cons, frameDen_cons,
              slotDen_leaf l v hleaf h0]
            rfl
          · have hi := not_not.mp hleaf
            have hvlen : v < l.length :=
              hok (v :: vs) (List.mem_cons_self _ _) v (List.mem_cons_self _ _) h0 hi
            have hstep : stepIter l ((v :: vs) :: rest) =
                some (none, [(getE l v).s0, (getE l v).s1] :: vs :: rest) := by
              rw [stepIter_frame, if_neg h0, if_neg (by rw [hi]; exact fun hc => hc rfl)]
            have hcostv : slotCost l v =
                3 + slotCost l (getE l v).s0 + slotCost l (getE l v).s1 := by
              unfold slotCost
              rw [dSlot_internal_expand l hf v h0 hi hvlen]
            have hdenv : slotDen l v =
                slotDen l (getE l v).s0 ++ slotDen l (getE l v).s1 := by
              unfold slotDen
              rw [dSlot_internal_expand l hf v h0 hi hvlen]
            have hfc : frameCost l [(getE l v).s0, (getE l v).s1] =
                3 + slotCost l (getE l v).s0 + slotCost l (getE l v).s1 := by
              rw [frameCost_cons, frameCost_cons, frameCost_nil]
              ring
            have hok2 : ∀ fr2, fr2 ∈ ([(getE l v).s0, (getE l v).s1] :: vs :: rest) →
                FrameOK l fr2 := by
              intro fr2 hfr
              rcases List.mem_cons.mp hfr with rfl | hfr2
              · intro w hw hw0 hwi
                rcases List.mem_cons.mp hw with rfl | hw2
                · exact (hf v false hvlen (by rw [slotGet_s0] at hw0; exact hw0)
                    (by rw [slotGet_s0] at hwi; exact hwi)).2
                · rcases List.mem_cons.mp hw2 with rfl | hw3
                  · exact (hf v true hvlen (by rw [slotGet_s1] at hw0; exact hw0)
                      (by rw [slotGet_s1] at hwi; exact hwi)).2
                  · exact absurd hw3 (List.not_mem_nil _)
              · exact hok1 fr2 hfr2
            rw [runIter_step l F _ none _ hstep]
            rw [ih ([(getE l v).s0, (getE l v).s1] :: vs :: rest) hok2
              (by
                rw [stackCost_cons, stackCost_cons, hfc, ← hcostv]
                omega)]
            rw [stackDen_cons, stackDen_cons, stackDen_cons]
            conv_rhs => rw [frameDen_cons, hdenv]
            show some _ = some _
            simp only [frameDen_cons, frameDen_nil, List.append_nil,
              List.append_assoc]
            rfl

theorem dfs_root_den (l : List Internal) (hf : Forward l) (hlen : 1 ≤ l.length) :
    (dfsNode l l.length 0).2.1 =
      slotDen l (getE l 0).s0 ++ slotDen l (getE l 0).s1 := by
  obtain ⟨L0, hL0⟩ : ∃ L0, l.length = L0 + 1 := ⟨l.length - 1, by omega⟩
  have hstep : ∀ b : Bool, dSlot l L0 ((getE l 0).get b) =
      dSlot l l.length ((getE l 0).get b) := by
    intro b
    apply dSlot_stable_ge l hf
    intro hw0 hwi
    obtain ⟨hgt, hub⟩ := hf 0 b (by omega) hw0 hwi
    refine ⟨hub, by omega, by omega⟩
  conv_lhs => rw [hL0]
  rw [dfsNode_eq, slotGet_s0, slotGet_s1, hstep false, hstep true]
  rfl

theorem flatMap_range_getE (G : Internal → List Nat) :
    ∀ l : List Internal,
    (List.range l.length).flatMap (fun j => G (getE l j)) = l.flatMap G := by
  intro l
  induction l with
  | nil => rfl
  | cons a t ih =>
    rw [List.length_cons, List.range_succ_eq_map, List.flatMap_cons,
      List.flatMap_map]
    have hfn : (fun j => G (getE (a :: t) (Nat.succ j))) = fun j => G (getE t j) := by
      funext j
      rfl
    rw [hfn, ih]
    rfl

/-- The `items()` machine terminates and returns the depth-first reference
stream, on every reachable state. -/
theorem itemsRun_eq_ref :
    ∀ t, Reachable t → t.itemsRun = some t.itemsRef := by
  intro t hr
  have inv := reachable_inv t hr
  have hroot0 : FrameOK t.internals [(getE t.internals 0).s0, (getE t.internals 0).s1] := by
    intro w hw hw0 hwi
    rcases List.mem_cons.mp hw with rfl | hw2
    · exact (inv.forw 0 false inv.len_pos
        (by rw [slotGet_s0] at hw0; exact hw0)
        (by rw [slotGet_s0] at hwi; exact hwi)).2
    · rcases List.mem_cons.mp hw2 with rfl | hw3
      · exact (inv.forw 0 true inv.len_pos
          (by rw [slotGet_s1] at hw0; exact hw0)
          (by rw [slotGet_s1] at hwi; exact hwi)).2
      · exact absurd hw3 (List.not_mem_nil _)
  unfold BinTrie.itemsRun
  rw [runIter_den t.internals inv.forw _ _
    (by
      intro fr hfr
      rcases List.mem_cons.mp hfr with rfl | hfr2
      · exact hroot0
      · exact absurd hfr2 (List.not_mem_nil _))
    (le_refl _)]
  unfold BinTrie.itemsRef
  rw [dfs_root_den t.internals inv.forw inv.len_pos]
  rw [stackDen_cons, frameDen_cons, frameDen_cons, frameDen_nil]
  show some _ = some _
  simp [stackDen]

/-- C3: on every reachable trie state — hence independently of the order in
which non-colliding items were inserted — the `items()` iterator terminates
and yields exactly the depth-first pre-order stream of leaf payloads of the
node tree, whose multiset equals the multiset of payloads resident in the
store's leaf slots. -/
theorem c3_items_complete :
    ∀ t, Reachable t →
    t.itemsRun = some t.itemsRef ∧ (t.itemsRef).Perm (storeLeaves t.internals) := by
  intro t hr
  have inv := reachable_inv t hr
  constructor
  · exact itemsRun_eq_ref t hr
  · unfold BinTrie.itemsRef
    have h1 := dfs_leaves_perm t.internals inv.forw t.internals.length 0
      inv.len_pos (by omega)
    have h2 := visited_perm t.internals.length t.internals rfl inv.forw inv.perm
      inv.len_pos
    have h3 : (((dfsNode t.internals t.internals.length 0).1).flatMap
        (nodeLeaves t.internals)).Perm
        ((List.range t.internals.length).flatMap (nodeLeaves t.internals)) :=
      List.Perm.flatMap_right _ h2
    have h4 : (List.range t.internals.length).flatMap (nodeLeaves t.internals) =
        storeLeaves t.internals :=
      flatMap_range_getE (fun n => leafOf n.s0 ++ leafOf n.s1) t.internals
    exact (h1.trans h3).trans (h4 ▸ List.Perm.refl _)

/-- C3 witness: the freshly constructed trie enumerates to the empty
stream, matching its (empty) stock of leaf slots. -/
theorem c3_witness :
    BinTrie.new.itemsRun = some BinTrie.new.itemsRef ∧
    (BinTrie.new.itemsRef).Perm (storeLeaves BinTrie.new.internals) :=
  c3_items_complete BinTrie.new (Reachable.base 8192 BinTrie.new rfl)

/-! The guided exploration machine against its reference traversal. -/

theorem refExpNode_eq {H : Type} (l : List Internal) (ent : H → Bool → H)
    (its : H → List Bool) (fuel idx : Nat) (h : H) :
    refExpNode l ent its (fuel + 1) idx h =
      ((its h).flatMap
        (fun c => (eSlot l ent its fuel ((getE l idx).get c) (ent h c)).1),
       1 + ((its h).map
        (fun c => 1 + (eSlot l ent its fuel ((getE l idx).get c) (ent h c)).2)).sum) := by
  rw [refExpNode]
  rfl

theorem eSlot_zero {H : Type} (l : List Internal) (ent : H → Bool → H)
    (its : H → List Bool) (fuel : Nat) (h : H) :
    eSlot l ent its fuel 0 h = ([], 0) := by
  rw [eSlot, if_pos rfl]

theorem eSlot_leaf {H : Type} (l : List Internal) (ent : H → Bool → H)
    (its : H → List Bool) (fuel : Nat) (v : Nat) (h : H)
    (hleaf : v &&& HIGH ≠ 0) (h0 : v ≠ 0) :
    eSlot l ent its fuel v h = ([v &&& MASK], 0) := by
  rw [eSlot, if_neg h0, if_pos hleaf]

theorem eSlot_internal {H : Type} (l : List Internal) (ent : H → Bool → H)
    (its : H → List Bool) (fuel : Nat) (v : Nat) (h : H)
    (h0 : v ≠ 0) (hi : v &&& HIGH = 0) :
    eSlot l ent its fuel v h = refExpNode l ent its fuel v h := by
  rw [eSlot, if_neg h0, if_neg (by rw [hi]; exact fun hc => hc rfl)]

theorem refExp_stable {H : Type} (l : List Internal) (ent : H → Bool → H)
    (its : H → List Bool) (hf : Forward l) :
    ∀ fuel idx, idx < l.length → l.length - idx ≤ fuel → ∀ h : H,
    refExpNode l ent its (fuel + 1) idx h = refExpNode l ent its fuel idx h := by
  intro fuel
  induction fuel with
  | zero =>
    intro idx hidx hle
    omega
  | succ f ih =>
    intro idx hidx hle h
    rw [refExpNode_eq, refExpNode_eq]
    have hstep : ∀ c : Bool, eSlot l ent its (f + 1) ((getE l idx).get c) (ent h c) =
        eSlot l ent its f ((getE l idx).get c) (ent h c) := by
      intro c
      by_cases h0 : (getE l idx).get c = 0
      · rw [h0, eSlot_zero, eSlot_zero]
      · by_cases hleaf : (getE l idx).get c &&& HIGH ≠ 0
        · rw [eSlot_leaf l ent its _ _ _ hleaf h0, eSlot_leaf l ent its _ _ _ hleaf h0]
        · have hi := not_not.mp hleaf
          obtain ⟨hgt, hub⟩ := hf idx c hidx h0 hi
          rw [eSlot_internal l ent its _ _ _ h0 hi, eSlot_internal l ent its _ _ _ h0 hi]
          exact ih _ hub (by omega) (ent h c)
    have hfn1 : (fun c => (eSlot l ent its (f + 1) ((getE l idx).get c) (ent h c)).1) =
        (fun c => (eSlot l ent its f ((getE l idx).get c) (ent h c)).1) := by
      funext c
      rw [hstep c]
    have hfn2 : (fun c => 1 + (eSlot l ent its (f + 1) ((getE l idx).get c) (ent h c)).2) =
        (fun c => 1 + (eSlot l ent its f ((getE l idx).get c) (ent h c)).2) := by
      funext c
      rw [hstep c]
    rw [hfn1, hfn2]

theorem refExp_stable_ge {H : Type} (l : List Internal) (ent : H → Bool → H)
    (its : H → List Bool) (hf : Forward l) (idx : Nat) (hidx : idx < l.length)
    (h : H) : ∀ f g, l.length - idx ≤ f → f ≤ g →
    refExpNode l ent its f idx h = refExpNode l ent its g idx h := by
  intro f g hle hfg
  induction g, hfg using Nat.le_induction with
  | base => rfl
  | succ k hfk ih =>
    rw [ih, ← refExp_stable l ent its hf k idx hidx (by omega) h]

theorem eSlot_stable_ge {H : Type} (l : List Internal) (ent : H → Bool → H)
    (its : H → List Bool) (hf : Forward l) (v f g : Nat) (h : H)
    (hcond : v ≠ 0 → v &&& HIGH = 0 →
      v < l.length ∧ l.length - v ≤ f ∧ l.length - v ≤ g) :
    eSlot l ent its f v h = eSlot l ent its g v h := by
  by_cases h0 : v = 0
  · rw [h0, eSlot_zero, eSlot_zero]
  · by_cases hleaf : v &&& HIGH ≠ 0
    · rw [eSlot_leaf l ent its _ _ _ hleaf h0, eSlot_leaf l ent its _ _ _ hleaf h0]
    · have hi := not_not.mp hleaf
      obtain ⟨hlt, hf1, hg1⟩ := hcond h0 hi
      rw [eSlot_internal l ent its _ _ _ h0 hi, eSlot_internal l ent its _ _ _ h0 hi]
      have e1 := refExp_stable_ge l ent its hf v hlt h (l.length - v) f (le_refl _) hf1
      have e2 := refExp_stable_ge l ent its hf v hlt h (l.length - v) g (le_refl _) hg1
      rw [← e1, ← e2]

theorem exStackDen_cons {H : Type} (l : List Internal) (ent : H → Bool → H)
    (its : H → List Bool) (fr : Internal × H × List Bool)
    (rest : List (Internal × H × List Bool)) :
    exStackDen l ent its (fr :: rest) =
      exFrameDen l ent its fr ++ exStackDen l ent its rest := by
  unfold exStackDen
  rw [List.flatMap_cons]

theorem exFrameDen_cons {H : Type} (l : List Internal) (ent : H → Bool → H)
    (its : H → List Bool) (arr : Internal) (h : H) (c : Bool) (cs : List Bool) :
    exFrameDen l ent its (arr, h, c :: cs) =
      (eSlot l ent its l.length (arr.get c) (ent h c)).1 ++
        exFrameDen l ent its (arr, h, cs) := by
  unfold exFrameDen
  rw [List.flatMap_cons]

theorem exFrameDen_nil {H : Type} (l : List Internal) (ent : H → Bool → H)
    (its : H → List Bool) (arr : Internal) (h : H) :
    exFrameDen l ent its (arr, h, []) = [] := rfl

theorem exStackCost_cons {H : Type} (l : List Internal) (ent : H → Bool → H)
    (its : H → List Bool) (fr : Internal × H × List Bool)
    (rest : List (Internal × H × List Bool)) :
    exStackCost l ent its (fr :: rest) =
      exFrameCost l ent its fr + exStackCost l ent its rest := by
  unfold exStackCost
  rw [List.map_cons, List.sum_cons]

theorem exFrameCost_cons {H : Type} (l : List Internal) (ent : H → Bool → H)
    (its : H → List Bool) (arr : Internal) (h : H) (c : Bool) (cs : List Bool) :
    exFrameCost l ent its (arr, h, c :: cs) =
      exFrameCost l ent its (arr, h, cs) +
        (1 + (eSlot l ent its l.length (arr.get c) (ent h c)).2) := by
  unfold exFrameCost
  rw [List.map_cons, List.sum_cons]
  ring

theorem exFrameCost_pos {H : Type} (l : List Internal) (ent : H → Bool → H)
    (its : H → List Bool) (fr : Internal × H × List Bool) :
    1 ≤ exFrameCost l ent its fr := by
  unfold exFrameCost
  omega

theorem stepExplore_frame {H : Type} (l : List Internal) (ent : H → Bool → H)
    (its : H → List Bool) (arr : Internal) (h : H) (c : Bool) (cs : List Bool)
    (rest : List (Internal × H × List Bool)) :
    stepExplore l ent its ((arr, h, c :: cs) :: rest) =
      (if arr.get c = 0 then some (none, (arr, h, cs) :: rest)
       else if arr.get c &&& HIGH ≠ 0 then
        some (some (arr.get c &&& MASK), (arr, h, cs) :: rest)
       else some (none,
        (getE l (arr.get c), ent h c, its (ent h c)) :: (arr, h, cs) :: rest)) := rfl

theorem runExplore_step {H : Type} (l : List Internal) (ent : H → Bool → H)
    (its : H → List Bool) (F : Nat) (s : List (Internal × H × List Bool))
    (y : Option Nat) (s' : List (Internal × H × List Bool))
    (h : stepExplore l ent its s = some (y, s')) :
    runExplore l ent its (F + 1) s =
      (runExplore l ent its F s').map (fun L => y.elim L (fun x => x :: L)) := by
  rw [runExplore, h]

/-- Expanding the reference traversal of a child node at the canonical fuel:
the child's frame processes the choices of the freshly entered duplicate. -/
theorem refExp_expand {H : Type} (l : List Internal) (ent : H → Bool → H)
    (its : H → List Bool) (hf : Forward l) (v : Nat) (h : H)
    (hv : v < l.length) (hlen : 1 ≤ l.length) :
    refExpNode l ent its l.length v h =
      ((its h).flatMap
        (fun c => (eSlot l ent its l.length ((getE l v).get c) (ent h c)).1),
       1 + ((its h).map
        (fun c => 1 + (eSlot l ent its l.length ((getE l v).get c) (ent h c)).2)).sum) := by
  obtain ⟨L0, hL0⟩ : ∃ L0, l.length = L0 + 1 := ⟨l.length - 1, by omega⟩
  have hstep : ∀ c : Bool, eSlot l ent its L0 ((getE l v).get c) (ent h c) =
      eSlot l ent its l.length ((getE l v).get c) (ent h c) := by
    intro c
    apply eSlot_stable_ge l ent its hf
    intro hw0 hwi
    obtain ⟨hgt, hub⟩ := hf v c hv hw0 hwi
    refine ⟨hub, by omega, by omega⟩
  conv_lhs => rw [hL0]
  rw [refExpNode_eq]
  have hfn1 : (fun c => (eSlot l ent its L0 ((getE l v).get c) (ent h c)).1) =
      (fun c => (eSlot l ent its l.length ((getE l v).get c) (ent h c)).1) := by
    funext c
    rw [hstep c]
  have hfn2 : (fun c => 1 + (eSlot l ent its L0 ((getE l v).get c) (ent h c)).2) =
      (fun c => 1 + (eSlot l ent its l.length ((getE l v).get c) (ent h c)).2) := by
    funext c
    rw [hstep c]
  rw [hfn1, hfn2]

theorem runExplore_den {H : Type} (l : List Internal) (ent : H → Bool → H)
    (its : H → List Bool) (hf : Forward l) :
    ∀ F s, ExFramesOK l s → exStackCost l ent its s ≤ F →
    runExplore l ent its F s = some (exStackDen l ent its s) := by
  intro F
  induction F with
  | zero =>
    intro s hok hcost
    cases s with
    | nil => rfl
    | cons fr rest =>
      rw [exStackCost_cons] at hcost
      have := exFrameCost_pos l ent its fr
      omega
  | succ F ih =>
    intro s hok hcost
    cases s with
    | nil => rfl
    | cons fr rest =>
      rw [exStackCost_cons] at hcost
      obtain ⟨arr, h, rem⟩ := fr
      cases rem with
      | nil =>
        rw [runExplore_step l ent its F ((arr, h, ([] : List Bool)) :: rest) none rest rfl]
        rw [ih rest (fun fr2 hfr => hok fr2 (List.mem_cons_of_mem _ hfr))
          (by
            have := exFrameCost_pos l ent its (arr, h, ([] : List Bool))
            omega)]
        rw [exStackDen_cons, exFrameDen_nil, List.nil_append]
        rfl
      | cons c cs =>
        rw [exFrameCost_cons] at hcost
        have hokrest : ExFramesOK l ((arr, h, cs) :: rest) := by
          intro fr2 hfr
          rcases List.mem_cons.mp hfr with rfl | hfr2
          · obtain ⟨j, hj, hjeq⟩ := hok (arr, h, c :: cs) (List.mem_cons_self _ _)
            exact ⟨j, hj, hjeq⟩
          · exact hok fr2 (List.mem_cons_of_mem _ hfr2)
        by_cases h0 : arr.get c = 0
        · have hstep : stepExplore l ent its ((arr, h, c :: cs) :: rest) =
              some (none, (arr, h, cs) :: rest) := by
            rw [stepExplore_frame, if_pos h0]
          rw [runExplore_step l ent its F _ none _ hstep]
          rw [ih ((arr, h, cs) :: rest) hokrest
            (by
              rw [h0, eSlot_zero] at hcost
              rw [exStackCost_cons]
              omega)]
          rw [exStackDen_cons, exStackDen_cons, exFrameDen_cons, h0, eSlot_zero,
            List.nil_append]
          rfl
        · by_cases hleaf : arr.get c &&& HIGH ≠ 0
          · have hstep : stepExplore l ent its ((arr, h, c :: cs) :: rest) =
                some (some (arr.get c &&& MASK), (arr, h, cs) :: rest) := by
              rw [stepExplore_frame, if_neg h0, if_pos hleaf]
            rw [runExplore_step l ent its F _ (some (arr.get c &&& MASK)) _ hstep]
            rw [ih ((arr, h, cs) :: rest) hokrest
              (by
                rw [eSlot_leaf l ent its _ _ _ hleaf h0] at hcost
                rw [exStackCost_cons]
                omega)]
            rw [exStackDen_cons, exStackDen_cons, exFrameDen_cons,
              eSlot_leaf l ent its _ _ _ hleaf h0]
            rfl
          · have hi := not_not.mp hleaf
            obtain ⟨j, hj, hjeq⟩ := hok (arr, h, c :: cs) (List.mem_cons_self _ _)
            have hvlen : arr.get c < l.length := by
              have := hf j c hj
              rw [← hjeq] at this
              exact (this h0 hi).2
            have hlen1 : 1 ≤ l.length := by omega
            have hstep : stepExplore l ent its ((arr, h, c :: cs) :: rest) =
                some (none,
                  (getE l (arr.get c), ent h c, its (ent h c)) :: (arr, h, cs) :: rest) := by
              rw [stepExplore_frame, if_neg h0,
                if_neg (by rw [hi]; exact fun hc => hc rfl)]
            have hexp := refExp_expand l ent its hf (arr.get c) (ent h c) hvlen hlen1
            have hchildden : exFrameDen l ent its
                (getE l (arr.get c), ent h c, its (ent h c)) =
                (eSlot l ent its l.length (arr.get c) (ent h c)).1 := by
              rw [eSlot_internal l ent its _ _ _ h0 hi, hexp]
              rfl
            have hchildcost : exFrameCost l ent its
                (getE l (arr.get c), ent h c, its (ent h c)) =
                (eSlot l ent its l.length (arr.get c) (ent h c)).2 := by
              rw [eSlot_internal l ent its _ _ _ h0 hi, hexp]
              rfl
            have hok2 : ExFramesOK l
                ((getE l (arr.get c), ent h c, its (ent h c)) :: (arr, h, cs) :: rest) := by
              intro fr2 hfr
              rcases List.mem_cons.mp hfr with rfl | hfr2
              · exact ⟨arr.get c, hvlen, rfl⟩
              · exact hokrest fr2 hfr2
            rw [runExplore_step l ent its F _ none _ hstep]
            rw [ih _ hok2
              (by
                rw [exStackCost_cons, exStackCost_cons, hchildcost]
                omega)]
            rw [exStackDen_cons, exStackDen_cons, exStackDen_cons, hchildden]
            conv_rhs => rw [exFrameDen_cons]
            show some _ = some _
            simp only [List.append_assoc]
            rfl

/-- The `explore` machine terminates and returns the duplicate-on-descent
reference stream, for any heuristic, on every reachable state. -/
theorem exploreRun_eq_ref (H : Type) (ent : H → Bool → H)
    (its : H → List Bool) (h0 : H) :
    ∀ t, Reachable t →
    t.exploreRun ent its h0 = some (t.exploreRef ent its h0) := by
  intro t hr
  have inv := reachable_inv t hr
  unfold BinTrie.exploreRun
  rw [runExplore_den t.internals ent its inv.forw _ _
    (by
      intro fr hfr
      rcases List.mem_cons.mp hfr with rfl | hfr2
      · exact ⟨0, inv.len_pos, rfl⟩
      · exact absurd hfr2 (List.not_mem_nil _))
    (le_refl _)]
  unfold BinTrie.exploreRef
  rw [refExp_expand t.internals ent its inv.forw 0 h0 inv.len_pos inv.len_pos]
  rw [exStackDen_cons]
  show some _ = some _
  simp [exStackDen, exFrameDen]

/-- C9: for every heuristic — any state type with any `enter` update and any
choice sequence — the explore iterator's output equals the reference
traversal in which each descent duplicates the parent frame's heuristic
and applies `enter` only to the duplicate, so sibling branches never see
each other's state updates. -/
theorem c9_branch_independence (H : Type) (ent : H → Bool → H)
    (its : H → List Bool) (h0 : H) :
    ∀ t, Reachable t →
    t.exploreRun ent its h0 = some (t.exploreRef ent its h0) := by
  intro t hr
  exact exploreRun_eq_ref H ent its h0 t hr

/-- C9 witness: a counting heuristic on the fresh trie. -/
theorem c9_witness :
    BinTrie.new.exploreRun (fun n _ => n + 1) (fun _ => [false, true]) 0 =
      some (BinTrie.new.exploreRef (fun n _ => n + 1) (fun _ => [false, true]) 0) :=
  c9_branch_independence Nat (fun n _ => n + 1) (fun _ => [false, true]) 0
    BinTrie.new (Reachable.base 8192 BinTrie.new rfl)

/-- With the always-true filter the reference guided traversal over the base
order `[false, true]` is exactly the depth-first walk. -/
theorem refExp_filter_true (l : List Internal) :
    ∀ fuel idx,
    refExpNode l filterEnter filterIters fuel idx (fun _ => true) =
      ((dfsNode l fuel idx).2.1, (dfsNode l fuel idx).2.2) := by
  intro fuel
  induction fuel with
  | zero => intro idx; rfl
  | succ f ih =>
    intro idx
    have hslot : ∀ c : Bool,
        eSlot l filterEnter filterIters f ((getE l idx).get c) (fun _ => true) =
          ((dSlot l f ((getE l idx).get c)).2.1,
           (dSlot l f ((getE l idx).get c)).2.2) := by
      intro c
      by_cases h0 : (getE l idx).get c = 0
      · rw [h0, eSlot_zero, dSlot_zero]
      · by_cases hleaf : (getE l idx).get c &&& HIGH ≠ 0
        · rw [eSlot_leaf l filterEnter filterIters f _ _ hleaf h0,
            dSlot_leaf l f _ hleaf h0]
        · have hi := not_not.mp hleaf
          rw [eSlot_internal l filterEnter filterIters f _ _ h0 hi,
            dSlot_internal l f _ h0 hi]
          exact ih _
    rw [refExpNode_eq, dfsNode_eq]
    have hits : filterIters (fun _ => true) = [false, true] := rfl
    rw [hits]
    apply Prod.ext
    · show (eSlot l filterEnter filterIters f ((getE l idx).get false)
          (filterEnter (fun _ => true) false)).1 ++
        ((eSlot l filterEnter filterIters f ((getE l idx).get true)
          (filterEnter (fun _ => true) true)).1 ++ []) = _
      rw [show filterEnter (fun _ => true) false = (fun _ => true) from rfl,
        show filterEnter (fun _ => true) true = (fun _ => true) from rfl,
        hslot false, hslot true]
      rw [List.append_nil]
      rfl
    · show 1 + ((1 + (eSlot l filterEnter filterIters f ((getE l idx).get false)
          (filterEnter (fun _ => true) false)).2) +
        ((1 + (eSlot l filterEnter filterIters f ((getE l idx).get true)
          (filterEnter (fun _ => true) true)).2) + 0)) = _
      rw [show filterEnter (fun _ => true) false = (fun _ => true) from rfl,
        show filterEnter (fun _ => true) true = (fun _ => true) from rfl,
        hslot false, hslot true]
      show 1 + ((1 + (dSlot l f ((getE l idx).get false)).2.2) +
        ((1 + (dSlot l f ((getE l idx).get true)).2.2) + 0)) =
        3 + (dSlot l f (getE l idx).s0).2.2 + (dSlot l f (getE l idx).s1).2.2
      rw [slotGet_s0, slotGet_s1]
      ring

/-- C10: on every reachable state, `explore` driven by a `FilterHeuristic`
whose predicate always answers true terminates and yields exactly the
`items()` stream — same payloads in the same order — because the filter's
base order visits slot `false` then slot `true`, matching the enumeration
iterator's slot order. -/
theorem c10_filter_true_items :
    ∀ t, Reachable t →
    t.exploreRun filterEnter filterIters (fun _ => true) = some t.itemsRef ∧
    t.itemsRun = some t.itemsRef := by
  intro t hr
  constructor
  · rw [exploreRun_eq_ref (Bool → Bool) filterEnter filterIters (fun _ => true) t hr]
    unfold BinTrie.exploreRef BinTrie.itemsRef
    rw [refExp_filter_true t.internals t.internals.length 0]
  · exact itemsRun_eq_ref t hr

/-- C10 witness: on the fresh trie both iterators return the empty stream. -/
theorem c10_witness :
    BinTrie.new.exploreRun filterEnter filterIters (fun _ => true) =
      some BinTrie.new.itemsRef ∧
    BinTrie.new.itemsRun = some BinTrie.new.itemsRef :=
  c10_filter_true_items BinTrie.new (Reachable.base 8192 BinTrie.new rfl)
